import Mathlib

/-!
Verification of the candidate form-submission pipeline
(`src/infra/compute/index.ts` of democracycandidate-formsubmissions).

The TypeScript source is shallowly embedded: JS strings are modeled as Lean
`String` (lists of characters), `String.prototype.toLowerCase` is modeled
per-character on the ASCII range (all characters the pipeline manipulates are
ASCII), regular-expression replacement is modeled by explicit scanners that
implement the exact regexes of the source, and the asynchronous handler is
modeled as a pure function from an environment of collaborator outcomes
(Turnstile oracle verdict, GitHub publication result, blob-storage result)
to an HTTP response together with the ordered trace of side effects it
performs.
-/

namespace DC

set_option maxRecDepth 16384

/-- ASCII lower-casing of one character, as `String.prototype.toLowerCase`
acts on the ASCII range (the only range the pipeline's regexes classify). -/
def lowerChar (c : Char) : Char :=
  if 65 ≤ c.toNat ∧ c.toNat ≤ 90 then Char.ofNat (c.toNat + 32) else c

/-- Lower-case every character of a JS string (`.toLowerCase()`). -/
def lowerStr (l : List Char) : List Char := l.map lowerChar

/-- Character class `[a-z0-9]` (the regexes run after lower-casing). -/
def isLowerAlnum (c : Char) : Bool :=
  (97 ≤ c.toNat && c.toNat ≤ 122) || (48 ≤ c.toNat && c.toNat ≤ 57)

/-- `replace(/[^a-z0-9]+/g, '-')`: each maximal run of characters outside
`[a-z0-9]` becomes a single dash.  The boolean flag records whether the
previous character was part of such a run. -/
def collapseAux : Bool → List Char → List Char
  | _, [] => []
  | inRun, c :: rest =>
    if isLowerAlnum c then c :: collapseAux false rest
    else
      match inRun with
      | true => collapseAux true rest
      | false => '-' :: collapseAux true rest

def collapseNonAlnum (l : List Char) : List Char := collapseAux false l

/-- `replace(/^-+|-+$/g, '')`: strip leading and trailing dash runs. -/
def trimDashes (l : List Char) : List Char :=
  ((l.dropWhile (· = '-')).reverse.dropWhile (· = '-')).reverse

/-- `String.prototype.lastIndexOf('.')`; `none` models the return value -1. -/
def lastIndexOf (c : Char) : List Char → Option Nat
  | [] => none
  | x :: xs =>
    match lastIndexOf c xs with
    | some i => some (i + 1)
    | none => if x = c then some 0 else none

/-- Normalisation applied to the extension-free part of a filename:
lower-case, collapse non-alphanumeric runs to dashes, trim edge dashes. -/
def normBase (l : List Char) : List Char :=
  trimDashes (collapseNonAlnum (lowerStr l))

/-- `normalizeFilename` from `src/infra/compute/index.ts`: split at the last
dot when it is at a positive index, normalise the base, re-append the
lower-cased extension. -/
def normalizeFilenameL (l : List Char) : List Char :=
  match lastIndexOf '.' l with
  | some i => if 0 < i then normBase (l.take i) ++ lowerStr (l.drop i) else normBase l
  | none => normBase l

def normalizeFilename (s : String) : String := String.mk (normalizeFilenameL s.data)

-- sanity examples (source behaviour)
/-! ### Character-level lemmas -/

/-! ### `lastIndexOf` lemmas -/

/-! ### Shape of the collapsed/trimmed base name -/

/-- No two adjacent dashes. -/
def NoDD (l : List Char) : Prop := l.Chain' (fun a b => ¬(a = '-' ∧ b = '-'))

/-! ### `trimDashes` lemmas -/

/-! ### `normBase` canonical form -/

/-! ### Idempotence of `normalizeFilename` on filenames whose base keeps a character -/

/-- Whether the base-name part (before the final dot, when the dot sits at a
positive index) contains at least one character that lower-cases into
`[a-z0-9]`.  Exactly the filenames satisfying this make `normalizeFilename`
idempotent. -/
def baseHasAlnumL (l : List Char) : Bool :=
  match lastIndexOf '.' l with
  | some i =>
    if 0 < i then (l.take i).any (fun c => isLowerAlnum (lowerChar c)) else true
  | none => true

def baseHasAlnum (f : String) : Bool := baseHasAlnumL f.data

/-! ### Markdown image-path rewriting (`normalizeMarkdownImagePaths`)

The source applies, for each `originalPath ↦ normalizedPath` entry of the
map (in insertion order), the three global regex replacements
`!\[([^\]]*)\]\(FORM\)` → `![$1](normalizedPath)` where `FORM` ranges over
the escaped original path, the `./../../assets/images/`-prefixed path and the
`images/`-prefixed path.  Since the path is regex-escaped, each replacement
is a literal left-to-right scan; it is modeled below with explicit fuel so
that it stays structurally recursive.  The replacement string
`![$1](normalizedPath)` goes through JavaScript `GetSubstitution`: `$`
sequences inside it — including any contributed by the normalized path —
expand (`$1`/`$01` to the captured alt text, `$&` to the matched text,
`$`-backquote / `$`-quote to the subject before/after the match, `$$` to a
dollar sign); this is modeled by `substAux`. -/

/-- Try to match `!\[([^\]]*)\]\(KEY\)` at the head of `s`; on success return
the alt text and the remainder after the closing parenthesis. -/
def tryMatch (key : List Char) (s : List Char) : Option (List Char × List Char) :=
  match s with
  | c1 :: c2 :: t =>
    if c1 = '!' ∧ c2 = '[' then
      match t.dropWhile (· ≠ ']') with
      | c3 :: c4 :: u =>
        if c3 = ']' ∧ c4 = '(' ∧ (key ++ [')']).isPrefixOf u then
          some (t.takeWhile (· ≠ ']'), u.drop (key.length + 1))
        else none
      | _ => none
    else none
  | _ => none

/-- Is the first character an ASCII decimal digit? -/
def digitHead : List Char → Bool
  | [] => false
  | d :: _ => 48 ≤ d.toNat && d.toNat ≤ 57

/-- ECMAScript `GetSubstitution` for a replacement template used with a
one-capture-group regex, as Node implements it: `$$`, `$&`, `$`-backquote,
`$`-quote, `$1` (not followed by a digit) and `$01` expand; every other
`$` sequence is left literal (Node leaves `$n`/`$nn` beyond the capture
count, and `$<`… without named groups, as literal text).  `m` is the matched
substring, `a` the single capture, `pre`/`post` the subject before/after the
match.  The fuel dominates the template length. -/
def substAux (m a pre post : List Char) : Nat → List Char → List Char
  | 0, l => l
  | _ + 1, [] => []
  | fuel + 1, c :: rest =>
    if c = '$' then
      match rest with
      | [] => ['$']
      | d :: r =>
        if d = '$' then '$' :: substAux m a pre post fuel r
        else if d = '&' then m ++ substAux m a pre post fuel r
        else if d = Char.ofNat 96 then pre ++ substAux m a pre post fuel r
        else if d = Char.ofNat 39 then post ++ substAux m a pre post fuel r
        else if d = '1' ∧ digitHead r = false then a ++ substAux m a pre post fuel r
        else if d = '0' ∧ r.take 1 = ['1'] then a ++ substAux m a pre post fuel (r.drop 1)
        else '$' :: d :: substAux m a pre post fuel r
    else c :: substAux m a pre post fuel rest

def substTemplate (m a pre post tmpl : List Char) : List Char :=
  substAux m a pre post tmpl.length tmpl

/-- The replacement template `![$1](NORM)` built by the source. -/
def templateOf (norm : List Char) : List Char :=
  '!' :: '[' :: '$' :: '1' :: ']' :: '(' :: (norm ++ [')'])

/-- Left-to-right global replacement of `!\[([^\]]*)\]\(KEY\)` by the
`$`-substituted template `![$1](NORM)`.  `pre` is the already-consumed part
of the subject (`$`-backquote refers to it); the fuel dominates the input
length, each step consuming at least one input character. -/
def replacePatAux (key norm : List Char) : Nat → List Char → List Char → List Char
  | 0, _, s => s
  | _ + 1, _, [] => []
  | fuel + 1, pre, c :: rest =>
    match tryMatch key (c :: rest) with
    | some (alt, after) =>
      substTemplate ('!' :: '[' :: (alt ++ ']' :: '(' :: (key ++ [')'])))
          alt pre after (templateOf norm) ++
        replacePatAux key norm fuel
          (pre ++ ('!' :: '[' :: (alt ++ ']' :: '(' :: (key ++ [')'])))) after
    | none => c :: replacePatAux key norm fuel (pre ++ [c]) rest

def replacePat (key norm s : List Char) : List Char :=
  replacePatAux key norm s.length [] s

def upPrefix : List Char := "./../../assets/images/".data

def imagesPrefix : List Char := "images/".data

/-- One map entry: the three pattern replacements, applied in source order. -/
def rewriteKey (orig norm s : List Char) : List Char :=
  replacePat (imagesPrefix ++ orig) norm
    (replacePat (upPrefix ++ orig) norm
      (replacePat orig norm s))

def normalizeMarkdownImagePathsL (m : List (List Char × List Char)) (s : List Char) :
    List Char :=
  m.foldl (fun acc kv => rewriteKey kv.1 kv.2 acc) s

/-- `normalizeMarkdownImagePaths(content, imageMap)` with the map as an
insertion-ordered association list. -/
def normalizeMarkdownImagePaths (content : String) (m : List (String × String)) : String :=
  String.mk (normalizeMarkdownImagePathsL (m.map (fun kv => (kv.1.data, kv.2.data))) content.data)

-- sanity examples (source behaviour)
/-- The full image-tag text `![ALT](CONTENT)`. -/
def bodyOf (alt content : List Char) : List Char :=
  '!' :: '[' :: (alt ++ ']' :: '(' :: (content ++ [')']))

/-- The part of a pattern match that is present in every occurrence:
`](KEY)`. -/
def patOf (key : List Char) : List Char := ']' :: '(' :: (key ++ [')'])

/-- `pat` occurs as a contiguous segment of `l`. -/
def occursIn (pat l : List Char) : Prop := ∃ a b, l = a ++ pat ++ b

/-- Executable occurrence check; `occursInB_iff` ties it to `occursIn`. -/
def occursInB (pat : List Char) : List Char → Bool
  | [] => pat.isEmpty
  | c :: rest => pat.isPrefixOf (c :: rest) || occursInB pat rest

/-- A markdown fragment: surrounding text `gap` followed by one image
reference `![alt](ref)`.  A body is a list of such fragments plus trailing
text, see `mdSubject`. -/
structure MdPart where
  gap : List Char
  alt : List Char
  ref : List Char

/-- The markdown body `gap₀ ++ ![alt₀](ref₀) ++ gap₁ ++ … ++ last`. -/
def mdSubject (parts : List MdPart) (last : List Char) : List Char :=
  (parts.map (fun p => p.gap ++ bodyOf p.alt p.ref)).flatten ++ last

/-- One replacement pass rewrites exactly the references equal to the key. -/
def passResult (key norm : List Char) (parts : List MdPart) : List MdPart :=
  parts.map (fun p => if p.ref = key then ⟨p.gap, p.alt, norm⟩ else p)

/-- Fuel consumed by one pass: a matching tag costs one scanner step,
everything else one step per character. -/
def neededFuel (key : List Char) (parts : List MdPart) : Nat :=
  parts.foldr (fun p acc =>
    p.gap.length + (if p.ref = key then 1 else (bodyOf p.alt p.ref).length) + acc) 0

/-- Per-fragment side conditions under which one replacement pass behaves
structurally: no `![` inside the gap (which could start an earlier,
larger-alt match), no `]` inside the alt text, and a reference that either
equals the key or is a clean non-match. -/
def PassHyp (key : List Char) (p : MdPart) : Prop :=
  ¬occursIn ['!', '['] p.gap ∧ ']' ∉ p.alt ∧
    (p.ref = key ∨
      (')' ∉ p.ref ∧ ¬occursIn ['!', '['] p.ref ∧ p.ref ≠ key))

/-- No pattern match starts inside `seg` when `s` follows it. -/
def NoStart (key : List Char) : List Char → List Char → Prop
  | [], _ => True
  | c :: seg, s => tryMatch key (c :: (seg ++ s)) = none ∧ NoStart key seg s

/-! ### The submission payload (`types.ts`) -/

structure ImageAsset where
  path : String
  content : String
deriving DecidableEq

/-- `CandidateSubmission` from `src/infra/types.ts`.  Optional JSON fields
are `Option String`; a required field that the client omits arrives as the
empty string (JS treats both `undefined` and `""` as falsy in the
validation checks). -/
structure CandidateSubmission where
  title : String
  candidate : String
  party : String
  electionDate : String
  categories : List String
  tags : List String
  about : String
  website : Option String
  content : String
  titleImage : Option String
  avatarImage : Option String
  additionalImages : List ImageAsset
  contactEmail : String
  contactPhone : Option String
  contactNotes : Option String
  submitterName : Option String
  submitterRelationship : Option String
  turnstileToken : String
deriving DecidableEq

/-- JS truthiness of an optional string field: absent and `""` are falsy. -/
def truthy : Option String → Bool
  | none => false
  | some s => s != ""

/-! ### Hugo front matter (`generateFrontmatter`) -/

/-- `about.replace(/"/g, '\\"')`. -/
def escQ (s : String) : String :=
  String.mk ((s.data.map (fun c => if c = '"' then ['\\', '"'] else [c])).flatten)

def hexDigit (n : Nat) : Char := if n < 10 then Char.ofNat (48 + n) else Char.ofNat (87 + n)

/-- `JSON.stringify` escaping of one character inside a string literal. -/
def jsonEscapeChar (c : Char) : List Char :=
  if c = '"' ∨ c = '\\' then ['\\', c]
  else if c = Char.ofNat 8 then ['\\', 'b']
  else if c = Char.ofNat 9 then ['\\', 't']
  else if c = Char.ofNat 10 then ['\\', 'n']
  else if c = Char.ofNat 12 then ['\\', 'f']
  else if c = Char.ofNat 13 then ['\\', 'r']
  else if c.toNat < 32 then
    ['\\', 'u', '0', '0', hexDigit (c.toNat / 16), hexDigit (c.toNat % 16)]
  else [c]

def jsonString (s : String) : String :=
  String.mk ('"' :: (s.data.map jsonEscapeChar).flatten ++ ['"'])

def joinSep (sep : String) : List String → String
  | [] => ""
  | [x] => x
  | x :: xs => x ++ sep ++ joinSep sep xs

/-- `JSON.stringify` of an array of strings, as used for categories/tags. -/
def jsonArr (xs : List String) : String := "[" ++ joinSep "," (xs.map jsonString) ++ "]"

/-- `generateFrontmatter` from `src/infra/compute/index.ts`, template
transcribed verbatim. -/
def generateFrontmatter (sub : CandidateSubmission)
    (avatarFilename imageFilename : Option String) : String :=
  let optionalBlock :=
    if truthy sub.website then "\nwebsite: \"" ++ sub.website.getD "" ++ "\"" else ""
  "---\ntitle: \"" ++ sub.title ++ "\"\nmeta_title: \"" ++ sub.candidate ++ " for " ++
    sub.title ++ "\"\ndescription: \"" ++ sub.candidate ++ " for " ++ sub.title ++
    "\"\ncandidate: \"" ++ sub.candidate ++ "\"\nparty: \"" ++ sub.party ++
    "\"\nelection_date: " ++ sub.electionDate ++ "T12:00:00Z\nimage: \"" ++
    imageFilename.getD "" ++ "\"\ncategories: " ++ jsonArr sub.categories ++
    "\ntags: " ++ jsonArr sub.tags ++ "\ndraft: false\navatar: \"" ++
    avatarFilename.getD "" ++ "\"\nabout: \"" ++ escQ sub.about ++ "\"" ++
    optionalBlock ++ "\n---\n\n" ++ sub.content ++ "\n"

/-- The metadata block as the amended claim C5 describes it: a fixed ordered
list of key-labeled lines — title, computed meta-title, description identical
to the meta-title, candidate name, party, election date with the fixed
time-of-day, image and avatar filenames defaulting to empty strings,
category and tag lists as literal JSON arrays, a draft flag that is always
false, the quote-escaped about text, and a website line exactly when the
website field is present — followed by the markdown body. -/
def specFrontmatter (sub : CandidateSubmission)
    (avatarFilename imageFilename : Option String) : String :=
  let metaTitle := sub.candidate ++ " for " ++ sub.title
  let fields : List String :=
    ["title: \"" ++ sub.title ++ "\"",
     "meta_title: \"" ++ metaTitle ++ "\"",
     "description: \"" ++ metaTitle ++ "\"",
     "candidate: \"" ++ sub.candidate ++ "\"",
     "party: \"" ++ sub.party ++ "\"",
     "election_date: " ++ sub.electionDate ++ "T12:00:00Z",
     "image: \"" ++ imageFilename.getD "" ++ "\"",
     "categories: " ++ jsonArr sub.categories,
     "tags: " ++ jsonArr sub.tags,
     "draft: false",
     "avatar: \"" ++ avatarFilename.getD "" ++ "\"",
     "about: \"" ++ escQ sub.about ++ "\""] ++
    (if truthy sub.website then ["website: \"" ++ sub.website.getD "" ++ "\""] else [])
  "---\n" ++ joinSep "\n" fields ++ "\n---\n\n" ++ sub.content ++ "\n"

/-- Split a string at newlines (`\n`). -/
def splitLinesL : List Char → List (List Char)
  | [] => [[]]
  | c :: rest =>
    match splitLinesL rest with
    | [] => [[c]]
    | h :: t => if c = '\n' then [] :: h :: t else (c :: h) :: t

def splitLines (s : String) : List String := (splitLinesL s.data).map String.mk

/-- The key of one metadata line: everything before the first colon. -/
def lineKey (s : String) : String := String.mk (s.data.takeWhile (· ≠ ':'))

/-- The keys of the metadata block: the lines after the opening `---` and
before the closing `---`, each reduced to its key. -/
def metaKeys (s : String) : List String :=
  (((splitLines s).drop 1).takeWhile (· ≠ "---")).map lineKey

/-- The metadata keys enumerated by claim C5 (website only when present). -/
def claimC5Keys : List String :=
  ["title", "meta_title", "description", "party", "election_date", "image",
   "avatar", "categories", "tags", "draft", "about", "website"]

/-- A concrete, fully populated submission used for counterexamples and
witnesses. -/
def sampleSubmission : CandidateSubmission where
  title := "Mayor"
  candidate := "Jane Doe"
  party := "Independent"
  electionDate := "2026-04-07"
  categories := ["City", "Illinois"]
  tags := ["Downtown"]
  about := "A candidate"
  website := none
  content := "## Policy"
  titleImage := none
  avatarImage := none
  additionalImages := []
  contactEmail := "jane@example.com"
  contactPhone := none
  contactNotes := none
  submitterName := none
  submitterRelationship := none
  turnstileToken := "tok-1"

/-! ### Slug, branch name and target directory (`createCandidatePR`) -/

/-- JS `\s` on the ASCII range (space, tab, newline, carriage return,
vertical tab, form feed). -/
def isWs (c : Char) : Bool :=
  c = ' ' || c = '\t' || c = '\n' || c = '\r' || c.toNat = 11 || c.toNat = 12

/-- `replace(/\s+/g, "-")`: each whitespace run becomes a single dash. -/
def wsCollapseAux : Bool → List Char → List Char
  | _, [] => []
  | inRun, c :: rest =>
    if isWs c then
      match inRun with
      | true => wsCollapseAux true rest
      | false => '-' :: wsCollapseAux true rest
    else c :: wsCollapseAux false rest

def isSlugChar (c : Char) : Bool := isLowerAlnum c || c = '-'

/-- `candidate.toLowerCase().replace(/\s+/g, "-").replace(/[^a-z0-9-]/g, "")`. -/
def slugOfL (l : List Char) : List Char :=
  (wsCollapseAux false (lowerStr l)).filter isSlugChar

def slugOf (s : String) : String := String.mk (slugOfL s.data)

/-- `` `form-${slug}-${correlationId.slice(0, 8)}` ``. -/
def branchName (candidate correlationId : String) : String :=
  "form-" ++ slugOf candidate ++ "-" ++ String.mk (correlationId.data.take 8)

/-- `electionDate.split('-')[0]`. -/
def yearOf (electionDate : String) : String :=
  String.mk (electionDate.data.takeWhile (· ≠ '-'))

/-- `` `src/content/english/candidates/${year}/${slug}` ``. -/
def candidatePath (sub : CandidateSubmission) : String :=
  "src/content/english/candidates/" ++ yearOf sub.electionDate ++ "/" ++ slugOf sub.candidate

-- sanity examples (source behaviour)
/-- Lower-case hexadecimal digit (the alphabet of `randomUUID()`). -/
def isHexDigit (c : Char) : Bool :=
  (48 ≤ c.toNat && c.toNat ≤ 57) || (97 ≤ c.toNat && c.toNat ≤ 102)

/-! ### Transport decoding (`Buffer.from(content, 'base64').toString('utf-8')`)

Node's base64 decoder ignores characters outside the (standard or url-safe)
alphabet, including padding `=`; a trailing group of 2 or 3 significant
characters yields 1 or 2 bytes.  The UTF-8 decoder below follows the usual
scheme — overlong, surrogate and out-of-range sequences, and truncated
sequences, become U+FFFD. -/

def b64Val (c : Char) : Option Nat :=
  if 65 ≤ c.toNat ∧ c.toNat ≤ 90 then some (c.toNat - 65)
  else if 97 ≤ c.toNat ∧ c.toNat ≤ 122 then some (c.toNat - 97 + 26)
  else if 48 ≤ c.toNat ∧ c.toNat ≤ 57 then some (c.toNat - 48 + 52)
  else if c = '+' ∨ c = '-' then some 62
  else if c = '/' ∨ c = '_' then some 63
  else none

/-- Groups of four 6-bit values become three bytes; trailing groups of three
or two values become two bytes or one. -/
def b64Groups : List Nat → List Nat
  | a :: b :: c :: d :: rest =>
    (a * 4 + b / 16) :: ((b % 16) * 16 + c / 4) :: ((c % 4) * 64 + d) :: b64Groups rest
  | [a, b, c] => [a * 4 + b / 16, (b % 16) * 16 + c / 4]
  | [a, b] => [a * 4 + b / 16]
  | _ => []

def base64Decode (s : String) : List Nat := b64Groups (s.data.filterMap b64Val)

def replChar : Char := Char.ofNat 65533

def isCont (b : Nat) : Bool := 128 ≤ b && b < 192

def utf8Aux : Nat → List Nat → List Char
  | 0, _ => []
  | _ + 1, [] => []
  | fuel + 1, b :: rest =>
    if b < 128 then Char.ofNat b :: utf8Aux fuel rest
    else if 194 ≤ b ∧ b ≤ 223 then
      match rest with
      | b2 :: rest2 =>
        if isCont b2 then Char.ofNat ((b - 192) * 64 + (b2 - 128)) :: utf8Aux fuel rest2
        else replChar :: utf8Aux fuel rest
      | [] => [replChar]
    else if 224 ≤ b ∧ b ≤ 239 then
      match rest with
      | b2 :: b3 :: rest3 =>
        if isCont b2 && isCont b3 then
          let cp := (b - 224) * 4096 + (b2 - 128) * 64 + (b3 - 128)
          if 2048 ≤ cp ∧ (cp < 55296 ∨ 57343 < cp) then Char.ofNat cp :: utf8Aux fuel rest3
          else replChar :: utf8Aux fuel rest3
        else replChar :: utf8Aux fuel rest
      | _ => replChar :: utf8Aux fuel rest
    else if 240 ≤ b ∧ b ≤ 244 then
      match rest with
      | b2 :: b3 :: b4 :: rest4 =>
        if isCont b2 && isCont b3 && isCont b4 then
          let cp := (b - 240) * 262144 + (b2 - 128) * 4096 + (b3 - 128) * 64 + (b4 - 128)
          if 65536 ≤ cp ∧ cp ≤ 1114111 then Char.ofNat cp :: utf8Aux fuel rest4
          else replChar :: utf8Aux fuel rest4
        else replChar :: utf8Aux fuel rest
      | _ => replChar :: utf8Aux fuel rest
    else replChar :: utf8Aux fuel rest

def utf8Chars (l : List Nat) : List Char := utf8Aux l.length l

def utf8FromBase64 (s : String) : String := String.mk (utf8Chars (base64Decode s))

-- sanity example: "PHN2Zy8+" is the base64 transport encoding of "<svg/>"
/-- `\w`: the class `[A-Za-z0-9_]`. -/
def isWordChar (c : Char) : Bool :=
  isLowerAlnum c || (65 ≤ c.toNat && c.toNat ≤ 90) || c = '_'

/-- `replace(/^data:image\/\w+;base64,/, "")`. -/
def stripDataUri (s : String) : String :=
  let l := s.data
  if "data:image/".data.isPrefixOf l then
    let t := l.drop 11
    let w := t.takeWhile isWordChar
    let u := t.dropWhile isWordChar
    if w ≠ [] ∧ ";base64,".data.isPrefixOf u then String.mk (u.drop 8) else s
  else s

/-! ### The file set committed by `createCandidatePR` -/

/-- `filename.toLowerCase().endsWith('.svg')`. -/
def isSVG (f : String) : Bool := ".svg".data.isSuffixOf (lowerStr f.data)

/-- Split at a separator character (`String.prototype.split`). -/
def splitCharL (sep : Char) : List Char → List (List Char)
  | [] => [[]]
  | c :: rest =>
    match splitCharL sep rest with
    | [] => [[c]]
    | h :: t => if c = sep then [] :: h :: t else (c :: h) :: t

/-- `img.path.split('/').pop() || img.path`. -/
def basenameOf (p : String) : String :=
  let last := ((splitCharL '/' p.data).getLast?).getD []
  if last = [] then p else String.mk last

/-- One entry of the file list: path, content, and whether the content is
base64 (`encoding: 'base64'` in the source; text otherwise). -/
structure FileEntry where
  path : String
  content : String
  isBase64 : Bool
deriving DecidableEq

/-- The file entry produced for one inline image: vector graphics (SVG) are
decoded from base64 into text, every other format stays base64. -/
def additionalEntry (cpath : String) (img : ImageAsset) : FileEntry :=
  let nf := normalizeFilename (basenameOf img.path)
  if isSVG nf then
    ⟨cpath ++ "/" ++ nf, utf8FromBase64 img.content, false⟩
  else
    ⟨cpath ++ "/" ++ nf, img.content, true⟩

/-- `Map.prototype.set`: replace in place when the key exists, append
otherwise. -/
def mapSet (m : List (String × String)) (k v : String) : List (String × String) :=
  if m.any (fun kv => kv.1 = k) then m.map (fun kv => if kv.1 = k then (k, v) else kv)
  else m ++ [(k, v)]

/-- The original→normalized map accumulated over the inline images (both the
bare filename and the full original path are keys). -/
def imageMapOf (imgs : List ImageAsset) : List (String × String) :=
  imgs.foldl (fun m img =>
    let orig := basenameOf img.path
    let nf := normalizeFilename orig
    mapSet (mapSet m orig nf) img.path nf) []

/-- The full file list pushed by `createCandidatePR`, in source order:
avatar, title image, inline images, then `index.md` with the rewritten
markdown and generated front matter. -/
def candidateFiles (sub : CandidateSubmission) : List FileEntry :=
  let slug := slugOf sub.candidate
  let cpath := candidatePath sub
  let avatarName :=
    match sub.avatarImage with
    | some _ => some (normalizeFilename (slug ++ "-avatar.jpg"))
    | none => none
  let avatarFiles :=
    match sub.avatarImage with
    | some img =>
      [(⟨cpath ++ "/" ++ normalizeFilename (slug ++ "-avatar.jpg"),
        stripDataUri img, true⟩ : FileEntry)]
    | none => []
  let imageName :=
    match sub.titleImage with
    | some _ => some (normalizeFilename (slug ++ "-title.jpg"))
    | none => none
  let titleFiles :=
    match sub.titleImage with
    | some img =>
      [(⟨cpath ++ "/" ++ normalizeFilename (slug ++ "-title.jpg"),
        stripDataUri img, true⟩ : FileEntry)]
    | none => []
  let addFiles := sub.additionalImages.map (additionalEntry cpath)
  let newContent := normalizeMarkdownImagePaths sub.content (imageMapOf sub.additionalImages)
  let fm := generateFrontmatter { sub with content := newContent } avatarName imageName
  avatarFiles ++ titleFiles ++ addFiles ++ [⟨cpath ++ "/index.md", fm, false⟩]

/-- One tree entry sent to the hosting API: binary files are referenced by
the identifier returned from the separate blob-creation call (`shaOf`
models that call as a function of the blob content), text files are
inlined. -/
structure TreeItem where
  path : String
  mode : String
  sha : Option String
  content : Option String
deriving DecidableEq

def mkTreeItem (shaOf : String → String) (f : FileEntry) : TreeItem :=
  if f.isBase64 then ⟨f.path, "100644", some (shaOf f.content), none⟩
  else ⟨f.path, "100644", none, some f.content⟩

def treeItems (shaOf : String → String) (sub : CandidateSubmission) : List TreeItem :=
  (candidateFiles sub).map (mkTreeItem shaOf)

/-! ### The HTTP handler (`submitCandidate`)

The handler is modeled as a pure function of an environment describing the
collaborator outcomes of one invocation: the local-dev flag, whether the
GitHub private key parses (`GITHUB_PRIVATE_KEY_SAFE`), the Turnstile oracle
verdict for the submitted token, the UUID `randomUUID()` would mint, the
current timestamp, the publication outcome (`some url` when every hosting
API step succeeds, `none` when any of them throws), and whether the blob
upload succeeds.  Along with the HTTP response it returns the ordered trace
of side effects it performed. -/

structure ContactRecord where
  correlationId : String
  submittedAt : String
  contactEmail : String
  contactPhone : Option String
  contactNotes : Option String
  submitterName : Option String
  submitterRelationship : Option String
  candidateName : String
  pullRequestUrl : String
deriving DecidableEq

inductive Effect where
  | turnstileVerify (token : String)
  | mintUuid
  | publishAttempt (branch : String)
  | storeContact (key : String) (record : ContactRecord)
deriving DecidableEq

structure Env where
  isLocalDev : Bool
  keyConfigured : Bool
  turnstileOk : Bool
  freshUuid : String
  now : String
  publishResult : Option String
  archiveOk : Bool
deriving DecidableEq

/-- The JSON body shapes the handler can return (`SubmissionResponse`);
absent fields are `none`. -/
structure HttpRes where
  status : Nat
  success : Option Bool
  message : String
  errors : Option (List String)
  correlationId : Option String
  pullRequestUrl : Option String
deriving DecidableEq

/-- The required-field checks, in source order, accumulating every
violation. -/
def validationErrors (sub : CandidateSubmission) : List String :=
  (if sub.candidate = "" then ["Candidate name is required"] else []) ++
  (if sub.title = "" then ["Position title is required"] else []) ++
  (if sub.contactEmail = "" then ["Contact email is required"] else []) ++
  (if sub.turnstileToken = "" then ["Turnstile token is required"] else []) ++
  (if sub.content = "" then ["Content is required"] else [])

def mockPrUrl : String := "http://localhost:mock-pr-url"

/-- The generic 500 body: catch-all for any internal failure. -/
def resp500 : HttpRes :=
  ⟨500, some false, "An error occurred processing your submission. Please try again.",
    none, some "", none⟩

def mkContactRecord (env : Env) (sub : CandidateSubmission)
    (correlationId prUrl : String) : ContactRecord :=
  ⟨correlationId, env.now, sub.contactEmail, sub.contactPhone, sub.contactNotes,
    sub.submitterName, sub.submitterRelationship, sub.candidate, prUrl⟩

/-- `storeContactInfo` and the success response: the record is uploaded under
the key `{correlationId}.json`; a storage failure surfaces as the generic
500. -/
def storeStep (env : Env) (sub : CandidateSubmission) (correlationId prUrl : String)
    (fx : List Effect) : HttpRes × List Effect :=
  let record := mkContactRecord env sub correlationId prUrl
  let fx2 := fx ++ [Effect.storeContact (correlationId ++ ".json") record]
  if env.archiveOk then
    (⟨200, some true,
      "Candidate submission received! A pull request has been created for review.",
      none, some correlationId, some prUrl⟩, fx2)
  else (resp500, fx2)

/-- `submitCandidate`: CORS preflight, JSON parse (`none` = parse throw),
field validation, Turnstile check (bypassed in local dev), correlation-ID
mint, publication (skipped in local dev without GitHub credentials; a
missing credential outside that mode throws before any hosting call), then
the contact archive. -/
def submitCandidate (env : Env) (method : String) (body : Option CandidateSubmission) :
    HttpRes × List Effect :=
  if method = "OPTIONS" then (⟨204, none, "", none, none, none⟩, [])
  else
    match body with
    | none => (resp500, [])
    | some sub =>
      let errors := validationErrors sub
      if errors ≠ [] then
        (⟨400, some false, "Validation failed", some errors, none, none⟩, [])
      else
        let fx1 : List Effect :=
          if env.isLocalDev then [] else [Effect.turnstileVerify sub.turnstileToken]
        if (env.isLocalDev || env.turnstileOk) = false then
          (⟨401, some false, "Invalid security token", none, none, none⟩, fx1)
        else
          let fx2 := fx1 ++ [Effect.mintUuid]
          let correlationId := env.freshUuid
          if env.isLocalDev && !env.keyConfigured then
            storeStep env sub correlationId mockPrUrl fx2
          else if !env.keyConfigured then
            (resp500, fx2)
          else
            let fx3 := fx2 ++ [Effect.publishAttempt (branchName sub.candidate correlationId)]
            match env.publishResult with
            | none => (resp500, fx3)
            | some url => storeStep env sub correlationId url fx3

/-! ### CORS headers (`getCorsHeaders`) -/

/-- Trim ASCII whitespace from both ends (`String.prototype.trim`). -/
def trimL (l : List Char) : List Char :=
  ((l.dropWhile isWs).reverse.dropWhile isWs).reverse

/-- `ALLOWED_ORIGINS`: the env value (or the production default) split on
commas, each entry trimmed, empty entries dropped. -/
def parseAllowedOrigins (envVal : Option String) : List String :=
  (((splitCharL ',' (envVal.getD "https://www.democracycandidate.us").data).map trimL).filter
    (fun l => l ≠ [])).map String.mk

/-- The origin echoed back: the requesting origin when allow-listed,
otherwise the first configured origin. -/
def corsAllowOrigin (allowed : List String) (origin : String) : String :=
  if origin ∈ allowed then origin else allowed.headD ""

def corsHeaders (allowed : List String) (origin : Option String) : List (String × String) :=
  let allowedOrigin := corsAllowOrigin allowed (origin.getD "")
  [("Access-Control-Allow-Origin", allowedOrigin),
   ("Access-Control-Allow-Methods", "POST, OPTIONS"),
   ("Access-Control-Allow-Headers", "Content-Type"),
   ("Access-Control-Max-Age", "86400")]

/-- A concrete submission with one SVG and one binary inline image. -/
def witnessSub : CandidateSubmission :=
  { sampleSubmission with
    additionalImages := [⟨"images/Logo.SVG", "PHN2Zy8+"⟩, ⟨"images/photo.png", "AAEC"⟩] }

/-! ### Handler claims -/

/-! ## Theorems -/

example : normalizeFilename "My Photo (1).PNG" = "my-photo-1.png" := by decide
example : normalizeFilename "photo.png" = "photo.png" := by decide
example : normalizeFilename "!.a" = ".a" := by decide
example : normalizeFilename ".a" = "a" := by decide

theorem toNat_ofNat_valid (n : Nat) (h : n.isValidChar) : (Char.ofNat n).toNat = n := by
  simp only [Char.ofNat, dif_pos h, Char.ofNatAux, Char.toNat]
  rfl

theorem toNat_lowerChar_of_upper {c : Char} (h : 65 ≤ c.toNat ∧ c.toNat ≤ 90) :
    (lowerChar c).toNat = c.toNat + 32 := by
  have hv : (c.toNat + 32).isValidChar := Or.inl (by omega)
  simp only [lowerChar, if_pos h]
  exact toNat_ofNat_valid _ hv

theorem lowerChar_of_not_upper {c : Char} (h : ¬(65 ≤ c.toNat ∧ c.toNat ≤ 90)) :
    lowerChar c = c := if_neg h

theorem not_upper_lowerChar (c : Char) :
    ¬(65 ≤ (lowerChar c).toNat ∧ (lowerChar c).toNat ≤ 90) := by
  by_cases h : 65 ≤ c.toNat ∧ c.toNat ≤ 90
  · rw [toNat_lowerChar_of_upper h]; omega
  · rw [lowerChar_of_not_upper h]; exact h

theorem lowerChar_lowerChar (c : Char) : lowerChar (lowerChar c) = lowerChar c :=
  lowerChar_of_not_upper (not_upper_lowerChar c)

theorem lowerChar_of_isLowerAlnum {c : Char} (h : isLowerAlnum c = true) : lowerChar c = c := by
  apply lowerChar_of_not_upper
  simp only [isLowerAlnum, Bool.or_eq_true, Bool.and_eq_true, decide_eq_true_eq] at h
  omega

theorem lowerChar_dash : lowerChar '-' = '-' := by decide

theorem lowerChar_eq_dot {c : Char} (h : lowerChar c = '.') : c = '.' := by
  by_cases hu : 65 ≤ c.toNat ∧ c.toNat ≤ 90
  · exfalso
    have h2 := toNat_lowerChar_of_upper hu
    rw [h] at h2
    have h3 : ('.' : Char).toNat = 46 := by decide
    omega
  · rwa [lowerChar_of_not_upper hu] at h

theorem isLowerAlnum_ne_dash {c : Char} (h : isLowerAlnum c = true) : c ≠ '-' := by
  intro he; subst he; simp [isLowerAlnum] at h

theorem dot_not_lowerAlnum : isLowerAlnum '.' = false := by decide

theorem lastIndexOf_eq_none {c : Char} : ∀ {l : List Char}, lastIndexOf c l = none → c ∉ l
  | [], _ => by simp
  | x :: xs, h => by
    simp only [lastIndexOf] at h
    rcases hx : lastIndexOf c xs with _ | j
    · rw [hx] at h
      by_cases hxc : x = c
      · simp [hxc] at h
      · intro hm
        rcases List.mem_cons.mp hm with h1 | h1
        · exact hxc h1.symm
        · exact lastIndexOf_eq_none hx h1
    · rw [hx] at h; simp at h

theorem lastIndexOf_of_not_mem {c : Char} : ∀ {l : List Char}, c ∉ l → lastIndexOf c l = none
  | [], _ => rfl
  | x :: xs, h => by
    simp only [List.mem_cons, not_or] at h
    simp only [lastIndexOf, lastIndexOf_of_not_mem h.2]
    rw [if_neg (fun he => h.1 he.symm)]

theorem lastIndexOf_spec {c : Char} :
    ∀ {l : List Char} {i : Nat}, lastIndexOf c l = some i →
      ∃ a b, l = a ++ c :: b ∧ a.length = i ∧ c ∉ b
  | [], i, h => by simp [lastIndexOf] at h
  | x :: xs, i, h => by
    simp only [lastIndexOf] at h
    rcases hx : lastIndexOf c xs with _ | j
    · rw [hx] at h
      by_cases hxc : x = c
      · simp only [hxc, if_pos rfl] at h
        refine ⟨[], xs, by simp [hxc], by simpa using Option.some_inj.mp h,
          lastIndexOf_eq_none hx⟩
      · simp [hxc] at h
    · rw [hx] at h
      have hi : j + 1 = i := Option.some_inj.mp h
      obtain ⟨a, b2, hab, hlen, hnb⟩ := lastIndexOf_spec hx
      exact ⟨x :: a, b2, by simp [hab], by simp [hlen, hi], hnb⟩

theorem lastIndexOf_append {c : Char} {b : List Char} (hb : c ∉ b) :
    ∀ (a : List Char), lastIndexOf c (a ++ c :: b) = some a.length
  | [] => by
    simp only [List.nil_append, lastIndexOf, lastIndexOf_of_not_mem hb]
    simp
  | x :: a => by
    show lastIndexOf c (x :: (a ++ c :: b)) = some (a.length + 1)
    simp only [lastIndexOf]
    rw [lastIndexOf_append hb a]

theorem mem_collapseAux :
    ∀ {l : List Char} {b : Bool} {c : Char}, c ∈ collapseAux b l →
      isLowerAlnum c = true ∨ c = '-'
  | [], b, c => by simp [collapseAux]
  | x :: rest, b, c => by
    simp only [collapseAux]
    by_cases hx : isLowerAlnum x
    · rw [if_pos hx]
      intro hm
      rcases List.mem_cons.mp hm with h1 | h1
      · exact Or.inl (h1 ▸ hx)
      · exact mem_collapseAux h1
    · rw [if_neg hx]
      cases b with
      | true => exact fun hm => mem_collapseAux hm
      | false =>
        intro hm
        rcases List.mem_cons.mp hm with h1 | h1
        · exact Or.inr h1
        · exact mem_collapseAux h1

theorem head_collapseAux_true :
    ∀ {l : List Char} {c : Char}, (collapseAux true l).head? = some c →
      isLowerAlnum c = true
  | [], c => by simp [collapseAux]
  | x :: rest, c => by
    simp only [collapseAux]
    by_cases hx : isLowerAlnum x
    · rw [if_pos hx]
      intro h
      simp only [List.head?_cons, Option.some_inj] at h
      exact h ▸ hx
    · rw [if_neg hx]
      exact fun h => head_collapseAux_true h

theorem noDD_collapseAux : ∀ (l : List Char) (b : Bool), NoDD (collapseAux b l)
  | [], b => by simp [collapseAux, NoDD]
  | x :: rest, b => by
    simp only [NoDD, collapseAux]
    by_cases hx : isLowerAlnum x
    · rw [if_pos hx]
      refine List.chain'_cons'.mpr ⟨fun y _ => ?_, noDD_collapseAux rest false⟩
      exact fun hc => absurd hc.1 (isLowerAlnum_ne_dash hx)
    · rw [if_neg hx]
      cases b with
      | true => exact noDD_collapseAux rest true
      | false =>
        refine List.chain'_cons'.mpr ⟨fun y hy => ?_, noDD_collapseAux rest true⟩
        intro hc
        have h2 := head_collapseAux_true hy
        exact absurd (hc.2 ▸ h2) (by simp [isLowerAlnum])

theorem collapseAux_fix :
    ∀ {l : List Char}, (∀ c ∈ l, isLowerAlnum c = true ∨ c = '-') → NoDD l →
      collapseAux false l = l ∧ (l.head? ≠ some '-' → collapseAux true l = l)
  | [], _, _ => ⟨rfl, fun _ => rfl⟩
  | x :: rest, hAll, hDD => by
    have hAllRest : ∀ c ∈ rest, isLowerAlnum c = true ∨ c = '-' :=
      fun c hc => hAll c (List.mem_cons_of_mem x hc)
    have hDDrest : NoDD rest := List.Chain'.tail hDD
    by_cases hx : isLowerAlnum x
    · have ih := (collapseAux_fix hAllRest hDDrest).1
      constructor
      · simp only [collapseAux, if_pos hx, ih]
      · intro _; simp only [collapseAux, if_pos hx, ih]
    · have hdash : x = '-' := (hAll x (List.mem_cons_self x rest)).resolve_left hx
      subst hdash
      have hhead : rest.head? ≠ some '-' := by
        intro hh
        rcases List.chain'_cons'.mp hDD with ⟨hr, _⟩
        exact hr '-' hh ⟨rfl, rfl⟩
      have ih := (collapseAux_fix hAllRest hDDrest).2 hhead
      constructor
      · simp only [collapseAux, if_neg hx, ih]
      · intro hne
        exact absurd rfl hne

theorem head_dropWhile_not (p : Char → Bool) :
    ∀ {l : List Char} {c : Char}, (l.dropWhile p).head? = some c → p c = false
  | [], c => by simp
  | x :: xs, c => by
    rw [List.dropWhile_cons]
    by_cases hx : p x
    · rw [if_pos hx]; exact fun h => head_dropWhile_not p h
    · rw [if_neg hx]
      intro h
      rw [← Option.some_inj.mp h]
      exact Bool.not_eq_true _ ▸ (by simpa using hx)

theorem dropWhile_eq_self_of_head {p : Char → Bool} {l : List Char}
    (h : ∀ c, l.head? = some c → p c = false) : l.dropWhile p = l := by
  cases l with
  | nil => rfl
  | cons x xs =>
    rw [List.dropWhile_cons, if_neg]
    simp [h x rfl]

theorem mem_dropWhile_of_neg {p : Char → Bool} :
    ∀ {l : List Char} {c : Char}, c ∈ l → p c = false → c ∈ l.dropWhile p
  | [], c => by simp
  | x :: xs, c => by
    intro hm hc
    rw [List.dropWhile_cons]
    by_cases hx : p x
    · rw [if_pos hx]
      rcases List.mem_cons.mp hm with h1 | h1
      · rw [h1] at hc; rw [hc] at hx; exact absurd hx (by simp)
      · exact mem_dropWhile_of_neg h1 hc
    · rw [if_neg hx]; exact hm

theorem mem_of_mem_trimDashes {l : List Char} {c : Char} (h : c ∈ trimDashes l) : c ∈ l := by
  simp only [trimDashes, List.mem_reverse] at h
  have h1 := List.Sublist.mem h (List.dropWhile_sublist _)
  rw [List.mem_reverse] at h1
  exact List.Sublist.mem h1 (List.dropWhile_sublist _)

theorem mem_trimDashes_of_ne {l : List Char} {c : Char} (hm : c ∈ l) (hc : c ≠ '-') :
    c ∈ trimDashes l := by
  have hp : (c = '-' : Bool) = false := by simp [hc]
  simp only [trimDashes, List.mem_reverse]
  refine mem_dropWhile_of_neg ?_ hp
  rw [List.mem_reverse]
  exact mem_dropWhile_of_neg hm hp

theorem noDD_trimDashes {l : List Char} (h : NoDD l) : NoDD (trimDashes l) := by
  have hsymm : ∀ a b : Char, ¬(a = '-' ∧ b = '-') → ¬(b = '-' ∧ a = '-') :=
    fun a b hab hc => hab ⟨hc.2, hc.1⟩
  have h1 : NoDD (l.dropWhile (· = '-')) :=
    List.Chain'.suffix h (List.dropWhile_suffix _)
  have h2 : NoDD ((l.dropWhile (· = '-')).reverse) := by
    rw [NoDD, List.chain'_reverse]
    exact List.Chain'.imp (fun a b hab => hsymm a b hab) h1
  have h3 : NoDD (((l.dropWhile (· = '-')).reverse).dropWhile (· = '-')) :=
    List.Chain'.suffix h2 (List.dropWhile_suffix _)
  rw [NoDD, trimDashes, List.chain'_reverse]
  exact List.Chain'.imp (fun a b hab => hsymm a b hab) h3

theorem head_trimDashes {l : List Char} {c : Char} (h : (trimDashes l).head? = some c) :
    c ≠ '-' := by
  rw [trimDashes, List.head?_reverse] at h
  revert h
  generalize hY : (l.dropWhile (· = '-')).reverse = Y
  intro h
  obtain ⟨t, ht⟩ := @List.dropWhile_suffix Char Y (· = '-')
  have hz := @List.getLast?_append Char t (Y.dropWhile (· = '-'))
  rw [ht, h] at hz
  have hz2 : Y.getLast? = some c := by rw [hz]; rfl
  rw [← hY, List.getLast?_reverse] at hz2
  have h2 := head_dropWhile_not (· = '-') hz2
  simpa using h2

theorem getLast_trimDashes {l : List Char} {c : Char}
    (h : (trimDashes l).getLast? = some c) : c ≠ '-' := by
  rw [trimDashes, List.getLast?_reverse] at h
  have h2 := head_dropWhile_not (· = '-') h
  simpa using h2

theorem trimDashes_eq_self {l : List Char}
    (hh : ∀ c, l.head? = some c → c ≠ '-') (hl : ∀ c, l.getLast? = some c → c ≠ '-') :
    trimDashes l = l := by
  have h1 : l.dropWhile (· = '-') = l :=
    dropWhile_eq_self_of_head (fun c hc => by simp [hh c hc])
  have h2 : l.reverse.dropWhile (· = '-') = l.reverse :=
    dropWhile_eq_self_of_head (fun c hc => by
      rw [List.head?_reverse] at hc
      simp [hl c hc])
  rw [trimDashes, h1, h2, List.reverse_reverse]

theorem lowerStr_fix {l : List Char} (h : ∀ c ∈ l, lowerChar c = c) : lowerStr l = l := by
  induction l with
  | nil => rfl
  | cons x xs ih =>
    simp only [lowerStr, List.map_cons]
    rw [h x (List.mem_cons_self x xs)]
    have := ih (fun c hc => h c (List.mem_cons_of_mem x hc))
    simp only [lowerStr] at this
    rw [this]

theorem mem_normBase {l : List Char} {c : Char} (h : c ∈ normBase l) :
    isLowerAlnum c = true ∨ c = '-' :=
  mem_collapseAux (mem_of_mem_trimDashes h)

theorem noDD_normBase (l : List Char) : NoDD (normBase l) :=
  noDD_trimDashes (noDD_collapseAux _ false)

theorem normBase_fix {l : List Char}
    (hAll : ∀ c ∈ l, isLowerAlnum c = true ∨ c = '-')
    (hDD : NoDD l)
    (hh : ∀ c, l.head? = some c → c ≠ '-')
    (hl : ∀ c, l.getLast? = some c → c ≠ '-') :
    normBase l = l := by
  have h1 : lowerStr l = l := lowerStr_fix (fun c hc => by
    rcases hAll c hc with ha | ha
    · exact lowerChar_of_isLowerAlnum ha
    · rw [ha]; exact lowerChar_dash)
  have h2 : collapseNonAlnum l = l := (collapseAux_fix hAll hDD).1
  rw [normBase, h1, h2]
  exact trimDashes_eq_self hh hl

theorem normBase_idem (l : List Char) : normBase (normBase l) = normBase l := by
  refine normBase_fix (fun c hc => mem_normBase hc) (noDD_normBase l)
    (fun c hc => head_trimDashes hc) (fun c hc => getLast_trimDashes hc)

theorem normBase_ne_nil {l : List Char}
    (h : ∃ c ∈ l, isLowerAlnum (lowerChar c) = true) : normBase l ≠ [] := by
  obtain ⟨c, hc, ha⟩ := h
  have h1 : lowerChar c ∈ lowerStr l := List.mem_map_of_mem lowerChar hc
  have h2 : lowerChar c ∈ collapseNonAlnum (lowerStr l) := by
    have : ∀ (m : List Char) (b : Bool), lowerChar c ∈ m → lowerChar c ∈ collapseAux b m := by
      intro m
      induction m with
      | nil => intro b hm; simp at hm
      | cons x xs ih =>
        intro b hm
        simp only [collapseAux]
        by_cases hx : isLowerAlnum x
        · rw [if_pos hx]
          rcases List.mem_cons.mp hm with h1 | h1
          · exact h1 ▸ List.mem_cons_self x _
          · exact List.mem_cons_of_mem x (ih false h1)
        · rw [if_neg hx]
          have hne : lowerChar c ≠ x := fun he => hx (he ▸ ha)
          have hmem : lowerChar c ∈ xs := by
            rcases List.mem_cons.mp hm with h1 | h1
            · exact absurd h1 hne
            · exact h1
          cases b with
          | true => exact ih true hmem
          | false => exact List.mem_cons_of_mem _ (ih true hmem)
    exact this _ false h1
  have h3 : lowerChar c ∈ normBase l :=
    mem_trimDashes_of_ne h2 (isLowerAlnum_ne_dash ha)
  exact List.ne_nil_of_mem h3

theorem dot_not_mem_normBase (l : List Char) : '.' ∉ normBase l := by
  intro h
  rcases mem_normBase h with h1 | h1
  · exact absurd h1 (by decide)
  · exact absurd h1 (by decide)

theorem lowerChar_dot : lowerChar '.' = '.' := by decide

theorem lowerStr_idem (l : List Char) : lowerStr (lowerStr l) = lowerStr l := by
  simp only [lowerStr, List.map_map]
  congr 1
  funext c
  exact lowerChar_lowerChar c

theorem not_upper_of_mem_normBase {l : List Char} {c : Char} (h : c ∈ normBase l) :
    ¬(65 ≤ c.toNat ∧ c.toNat ≤ 90) := by
  rcases mem_normBase h with h1 | h1
  · simp only [isLowerAlnum, Bool.or_eq_true, Bool.and_eq_true, decide_eq_true_eq] at h1
    omega
  · subst h1
    have : ('-' : Char).toNat = 45 := by decide
    omega

theorem normalizeFilenameL_idem {l : List Char} (h : baseHasAlnumL l = true) :
    normalizeFilenameL (normalizeFilenameL l) = normalizeFilenameL l := by
  rcases hli : lastIndexOf '.' l with _ | i
  · have hr : normalizeFilenameL l = normBase l := by
      simp [normalizeFilenameL, hli]
    rw [hr]
    have hnodot : lastIndexOf '.' (normBase l) = none :=
      lastIndexOf_of_not_mem (dot_not_mem_normBase l)
    simp [normalizeFilenameL, hnodot, normBase_idem]
  · by_cases hi : 0 < i
    · obtain ⟨a, b, hab, hlen, hnb⟩ := lastIndexOf_spec hli
      have htake : l.take i = a := by rw [hab, ← hlen, List.take_left]
      have hdrop : l.drop i = '.' :: b := by rw [hab, ← hlen, List.drop_left]
      have hr : normalizeFilenameL l = normBase a ++ ('.' :: lowerStr b) := by
        simp only [normalizeFilenameL, hli, if_pos hi, htake, hdrop]
        simp only [lowerStr, List.map_cons, lowerChar_dot]
      have hany : (l.take i).any (fun c => isLowerAlnum (lowerChar c)) = true := by
        simp only [baseHasAlnumL, hli, if_pos hi] at h
        exact h
      have hne : normBase a ≠ [] := by
        apply normBase_ne_nil
        rw [htake] at hany
        simpa using hany
      have hdotls : '.' ∉ lowerStr b := by
        intro hm
        obtain ⟨x, hx, hlx⟩ := List.mem_map.mp hm
        exact hnb ((lowerChar_eq_dot hlx) ▸ hx)
      have hlio : lastIndexOf '.' (normBase a ++ '.' :: lowerStr b) =
          some (normBase a).length := lastIndexOf_append hdotls (normBase a)
      have hpos : 0 < (normBase a).length := List.length_pos.mpr hne
      rw [hr]
      simp only [normalizeFilenameL, hlio, if_pos hpos, List.take_left, List.drop_left]
      rw [normBase_idem]
      simp only [lowerStr, List.map_cons, lowerChar_dot, List.map_map]
      have hcc : lowerChar ∘ lowerChar = lowerChar := funext lowerChar_lowerChar
      rw [hcc]
    · have hr : normalizeFilenameL l = normBase l := by
        simp [normalizeFilenameL, hli, hi]
      rw [hr]
      have hnodot : lastIndexOf '.' (normBase l) = none :=
        lastIndexOf_of_not_mem (dot_not_mem_normBase l)
      simp [normalizeFilenameL, hnodot, normBase_idem]

theorem not_upper_of_mem_normalizeFilenameL {l : List Char} {c : Char}
    (h : c ∈ normalizeFilenameL l) : ¬(65 ≤ c.toNat ∧ c.toNat ≤ 90) := by
  rcases hli : lastIndexOf '.' l with _ | i <;> simp only [normalizeFilenameL, hli] at h
  · exact not_upper_of_mem_normBase h
  · by_cases hi : 0 < i
    · rw [if_pos hi] at h
      rcases List.mem_append.mp h with h1 | h1
      · exact not_upper_of_mem_normBase h1
      · obtain ⟨x, _, hlx⟩ := List.mem_map.mp h1
        exact hlx ▸ not_upper_lowerChar x
    · rw [if_neg hi] at h
      exact not_upper_of_mem_normBase h

/-- Claim C3 as frozen is false: `normalizeFilename` is not idempotent on
every string.  On `"!.a"` the base name `"!"` normalises to the empty string,
the first pass yields `".a"`, and the second pass treats `".a"` as
extension-less, yielding `"a"`. -/
theorem claim_C3_cex :
    ¬(normalizeFilename (normalizeFilename "!.a") = normalizeFilename "!.a") := by decide

/-- Claim C3, amended: for every filename whose base name (the part before a
final dot at positive index) contains at least one character that lower-cases
into `[a-z0-9]`, `normalizeFilename` is idempotent; moreover (for all inputs)
its result contains no upper-case ASCII letter, and when the filename has an
extension the result is exactly the normalised base (runs of
non-alphanumerics collapsed to single dashes, edge dashes trimmed) followed by
the lower-cased extension. -/
theorem claim_C3 (f : String) (h : baseHasAlnum f = true) :
    normalizeFilename (normalizeFilename f) = normalizeFilename f ∧
    (∀ c ∈ (normalizeFilename f).data, ¬(65 ≤ c.toNat ∧ c.toNat ≤ 90)) ∧
    (∀ i, lastIndexOf '.' f.data = some i → 0 < i →
      (normalizeFilename f).data = normBase (f.data.take i) ++ lowerStr (f.data.drop i)) := by
  refine ⟨?_, ?_, ?_⟩
  · apply String.ext
    show normalizeFilenameL (normalizeFilenameL f.data) = normalizeFilenameL f.data
    exact normalizeFilenameL_idem h
  · intro c hc
    exact not_upper_of_mem_normalizeFilenameL hc
  · intro i hli hi
    show normalizeFilenameL f.data = _
    simp [normalizeFilenameL, hli, hi]

/-- Witness for the amended claim C3 at the concrete filename
`"My Photo (1).PNG"`. -/
theorem claim_C3_witness :
    baseHasAlnum "My Photo (1).PNG" = true ∧
    normalizeFilename (normalizeFilename "My Photo (1).PNG") =
      normalizeFilename "My Photo (1).PNG" :=
  ⟨by decide, (claim_C3 "My Photo (1).PNG" (by decide)).1⟩

example :
    normalizeMarkdownImagePaths "![a](photo.png)" [("photo.png", "images/photo-1.png")] =
      "![a](images/photo-1.png)" := by decide
example :
    normalizeMarkdownImagePaths "![a](other.png)" [("photo.png", "images/photo-1.png")] =
      "![a](other.png)" := by decide
example :
    normalizeMarkdownImagePaths "![a](./../../assets/images/photo.png)"
      [("photo.png", "images/photo-1.png")] = "![a](images/photo-1.png)" := by decide
example :
    normalizeMarkdownImagePaths "![x](a.png)" [("a.png", "k.$&b")] =
      "![x](k.![x](a.png)b)" := by decide
example :
    normalizeMarkdownImagePaths "c ![x](a.png)" [("a.png", "$`z")] =
      "c ![x](c z)" := by decide

theorem occursIn_cons {pat l : List Char} (c : Char) (h : occursIn pat l) :
    occursIn pat (c :: l) := by
  obtain ⟨a, b, hab⟩ := h
  exact ⟨c :: a, b, by simp [hab]⟩

theorem takeWhile_all_append {p : Char → Bool} :
    ∀ {a : List Char} {x : Char} {y : List Char},
      (∀ c ∈ a, p c = true) → p x = false →
      (a ++ x :: y).takeWhile p = a
  | [], x, y, _, hx => by simp [List.takeWhile_cons, hx]
  | c :: a, x, y, ha, hx => by
    have hc : p c = true := ha c (List.mem_cons_self c a)
    simp only [List.cons_append, List.takeWhile_cons, hc, if_true]
    rw [takeWhile_all_append (fun d hd => ha d (List.mem_cons_of_mem c hd)) hx]

theorem dropWhile_all_append {p : Char → Bool} :
    ∀ {a : List Char} {x : Char} {y : List Char},
      (∀ c ∈ a, p c = true) → p x = false →
      (a ++ x :: y).dropWhile p = x :: y
  | [], x, y, _, hx => by simp [List.dropWhile_cons, hx]
  | c :: a, x, y, ha, hx => by
    have hc : p c = true := ha c (List.mem_cons_self c a)
    simp only [List.cons_append, List.dropWhile_cons, hc, if_true]
    exact dropWhile_all_append (fun d hd => ha d (List.mem_cons_of_mem c hd)) hx

theorem tryMatch_head {alt key after : List Char} (halt : ']' ∉ alt) :
    tryMatch key ('!' :: '[' :: (alt ++ ']' :: '(' :: (key ++ ')' :: after))) =
      some (alt, after) := by
  have hall : ∀ c ∈ alt, (c ≠ ']' : Bool) = true := by
    intro c hc
    simp only [decide_eq_true_eq]
    exact fun he => halt (he ▸ hc)
  have hx : ((']' : Char) ≠ ']' : Bool) = false := by decide
  have h1 : (alt ++ ']' :: '(' :: (key ++ ')' :: after)).dropWhile (· ≠ ']') =
      ']' :: '(' :: (key ++ ')' :: after) := dropWhile_all_append hall hx
  have h2 : (alt ++ ']' :: '(' :: (key ++ ')' :: after)).takeWhile (· ≠ ']') = alt :=
    takeWhile_all_append hall hx
  have hpre : (key ++ [')']).isPrefixOf (key ++ ')' :: after) = true := by
    apply List.isPrefixOf_iff_prefix.mpr
    exact ⟨after, by simp⟩
  have hdrop : (key ++ ')' :: after).drop (key.length + 1) = after := by
    have hsh : key ++ ')' :: after = (key ++ [')']) ++ after := by simp
    rw [hsh]
    have hlen : (key ++ [')']).length = key.length + 1 := by simp
    rw [← hlen, List.drop_left]
  simp only [ne_eq, decide_not] at h1 h2
  simp [tryMatch, h1, h2, hpre, hdrop]

theorem tryMatch_eq_some {key s alt after : List Char}
    (h : tryMatch key s = some (alt, after)) :
    s = '!' :: '[' :: (alt ++ ']' :: '(' :: (key ++ ')' :: after)) ∧ ']' ∉ alt := by
  rcases s with _ | ⟨c1, _ | ⟨c2, t⟩⟩
  · simp [tryMatch] at h
  · simp [tryMatch] at h
  · simp only [tryMatch] at h
    by_cases h12 : c1 = '!' ∧ c2 = '['
    · rw [if_pos h12] at h
      rcases hd : t.dropWhile (· ≠ ']') with _ | ⟨c3, _ | ⟨c4, u⟩⟩ <;> simp only [hd] at h
      · simp at h
      · simp at h
      · by_cases h34 : c3 = ']' ∧ c4 = '(' ∧ (key ++ [')']).isPrefixOf u
        · rw [if_pos h34] at h
          have hpair := Option.some_inj.mp h
          have haltEq : t.takeWhile (· ≠ ']') = alt := congrArg Prod.fst hpair
          have hafter : u.drop (key.length + 1) = after := congrArg Prod.snd hpair
          obtain ⟨v, hv⟩ := List.isPrefixOf_iff_prefix.mp h34.2.2
          have hu : u = key ++ ')' :: v := by rw [← hv]; simp
          have hafter2 : after = v := by
            rw [← hafter, ← hv]
            have hlen : (key ++ [')']).length = key.length + 1 := by simp
            rw [← hlen, List.drop_left]
          constructor
          · have ht : t = alt ++ ']' :: '(' :: (key ++ ')' :: v) := by
              conv_lhs => rw [← List.takeWhile_append_dropWhile (· ≠ ']') t]
              rw [hd, haltEq, h34.1, h34.2.1, hu]
            rw [h12.1, h12.2, ht, hafter2]
          · intro hm
            have h2 := List.mem_takeWhile_imp (haltEq ▸ hm)
            simp at h2
        · rw [if_neg h34] at h
          simp at h
    · rw [if_neg h12] at h
      simp at h

theorem tryMatch_some_occurs {key s alt after : List Char}
    (h : tryMatch key s = some (alt, after)) : occursIn (patOf key) s := by
  obtain ⟨hs, _⟩ := tryMatch_eq_some h
  refine ⟨'!' :: '[' :: alt, after, ?_⟩
  rw [hs]
  simp [patOf]

theorem substAux_cons_ne {m a pre post : List Char} {c : Char} (hc : c ≠ '$')
    (fuel : Nat) (l : List Char) :
    substAux m a pre post (fuel + 1) (c :: l) = c :: substAux m a pre post fuel l := by
  simp only [substAux]
  rw [if_neg hc]

theorem substAux_dollar_one {m a pre post : List Char} {r : List Char}
    (hr : digitHead r = false) (fuel : Nat) :
    substAux m a pre post (fuel + 1) ('$' :: '1' :: r) =
      a ++ substAux m a pre post fuel r := by
  simp only [substAux]
  rw [if_pos trivial]
  rw [if_neg (by decide : ¬(('1' : Char) = '$'))]
  rw [if_neg (by decide : ¬(('1' : Char) = '&'))]
  rw [if_neg (by decide : ¬(('1' : Char) = Char.ofNat 96))]
  rw [if_neg (by decide : ¬(('1' : Char) = Char.ofNat 39))]
  rw [if_pos ⟨trivial, hr⟩]

theorem substAux_no_dollar (m a pre post : List Char) :
    ∀ (fuel : Nat) {l : List Char}, '$' ∉ l → substAux m a pre post fuel l = l
  | 0, _, _ => rfl
  | _ + 1, [], _ => rfl
  | fuel + 1, c :: l, h => by
    have hc : ¬(c = '$') := fun he => h (he ▸ List.mem_cons_self c l)
    rw [substAux_cons_ne hc,
      substAux_no_dollar m a pre post fuel (fun hm => h (List.mem_cons_of_mem c hm))]

theorem substTemplate_eval {norm : List Char} (hn : '$' ∉ norm)
    (m a pre post : List Char) :
    substTemplate m a pre post (templateOf norm) = bodyOf a norm := by
  have hnp : '$' ∉ norm ++ [')'] := by
    intro h
    rcases List.mem_append.mp h with h1 | h1
    · exact hn h1
    · simp at h1
  have hlen : (templateOf norm).length = (norm.length + 6) + 1 := by
    simp only [templateOf, List.length_cons, List.length_append, List.length_nil]
  rw [substTemplate, hlen, templateOf]
  rw [substAux_cons_ne (by decide : ('!' : Char) ≠ '$')]
  have h5 : norm.length + 6 = (norm.length + 5) + 1 := by omega
  rw [h5, substAux_cons_ne (by decide : ('[' : Char) ≠ '$')]
  have h4 : norm.length + 5 = (norm.length + 4) + 1 := by omega
  rw [h4, substAux_dollar_one
    (show digitHead (']' :: '(' :: (norm ++ [')'])) = false from rfl)]
  have h3 : norm.length + 4 = (norm.length + 3) + 1 := by omega
  rw [h3, substAux_cons_ne (by decide : (']' : Char) ≠ '$')]
  have h2 : norm.length + 3 = (norm.length + 2) + 1 := by omega
  rw [h2, substAux_cons_ne (by decide : ('(' : Char) ≠ '$')]
  rw [substAux_no_dollar m a pre post _ hnp]
  rfl

theorem replacePatAux_not_occurs {key norm : List Char} :
    ∀ (fuel : Nat) (pre s : List Char), ¬occursIn (patOf key) s →
      replacePatAux key norm fuel pre s = s
  | 0, _, s, _ => rfl
  | _ + 1, _, [], _ => rfl
  | fuel + 1, pre, c :: rest, hno => by
    simp only [replacePatAux]
    rcases ht : tryMatch key (c :: rest) with _ | ⟨alt, after⟩
    · simp only [ht]
      have hnr : ¬occursIn (patOf key) rest := fun ho => hno (occursIn_cons c ho)
      rw [replacePatAux_not_occurs fuel (pre ++ [c]) rest hnr]
    · exact absurd (tryMatch_some_occurs ht) hno

theorem replacePat_not_occurs {key norm s : List Char} (h : ¬occursIn (patOf key) s) :
    replacePat key norm s = s :=
  replacePatAux_not_occurs _ [] s h

/-- `bodyOf` followed by a tail, in the cons shape `tryMatch` recognizes. -/
theorem bodyOf_append (alt c x : List Char) :
    bodyOf alt c ++ x = '!' :: '[' :: (alt ++ ']' :: '(' :: (c ++ ')' :: x)) := by
  simp [bodyOf]

/-- At a matching tag the scanner emits the `$`-substituted template and
continues after the tag. -/
theorem replacePatAux_match {key norm alt : List Char} (halt : ']' ∉ alt)
    (hn : '$' ∉ norm) (fuel : Nat) (pre after : List Char) :
    replacePatAux key norm (fuel + 1) pre (bodyOf alt key ++ after) =
      bodyOf alt norm ++ replacePatAux key norm fuel (pre ++ bodyOf alt key) after := by
  rw [bodyOf_append]
  have hm := @tryMatch_head alt key after halt
  simp only [replacePatAux, hm]
  rw [substTemplate_eval hn]
  rfl

theorem first_paren_eq :
    ∀ {x y xs ys : List Char}, ')' ∉ x → ')' ∉ y →
      x ++ ')' :: xs = y ++ ')' :: ys → x = y ∧ xs = ys
  | [], y, xs, ys, _, hy, h => by
    rcases y with _ | ⟨b, y2⟩
    · simp only [List.nil_append, List.cons.injEq] at h
      exact ⟨rfl, h.2⟩
    · exfalso
      simp only [List.nil_append, List.cons_append, List.cons.injEq] at h
      apply hy
      rw [h.1]
      exact List.mem_cons_self b y2
  | a :: x2, y, xs, ys, hx, hy, h => by
    rcases y with _ | ⟨b, y2⟩
    · exfalso
      simp only [List.cons_append, List.nil_append, List.cons.injEq] at h
      apply hx
      rw [h.1]
      exact List.mem_cons_self _ _
    · simp only [List.cons_append, List.cons.injEq] at h
      have hrec := first_paren_eq (fun hm => hx (List.mem_cons_of_mem a hm))
        (fun hm => hy (List.mem_cons_of_mem b hm)) h.2
      exact ⟨by rw [h.1, hrec.1], hrec.2⟩

theorem tryMatch_nil (key : List Char) : tryMatch key [] = none := rfl

theorem tryMatch_single (key : List Char) (c : Char) : tryMatch key [c] = none := rfl

theorem tryMatch_none_fst {key : List Char} {c1 : Char} (h : c1 ≠ '!') :
    ∀ t, tryMatch key (c1 :: t) = none
  | [] => tryMatch_single key c1
  | c2 :: t => by
    show (if c1 = '!' ∧ c2 = '[' then _ else none) = none
    rw [if_neg (fun hh => h hh.1)]

theorem tryMatch_none_snd {key : List Char} {c2 : Char} (h : c2 ≠ '[')
    (c1 : Char) (t : List Char) : tryMatch key (c1 :: c2 :: t) = none := by
  show (if c1 = '!' ∧ c2 = '[' then _ else none) = none
  rw [if_neg (fun hh => h hh.2)]

/-- The pattern fails at the head of `![A](c ++ ")" ++ REST)` when the
parenthesized text `c` is not the key. -/
theorem tryMatch_none_central {key A c REST : List Char}
    (hA : ']' ∉ A) (hc : ')' ∉ c) (hk : ')' ∉ key) (hne : c ≠ key) :
    tryMatch key ('!' :: '[' :: (A ++ ']' :: '(' :: (c ++ ')' :: REST))) = none := by
  have hall : ∀ x ∈ A, (x ≠ ']' : Bool) = true := by
    intro x hx
    simp only [decide_eq_true_eq]
    exact fun he => hA (he ▸ hx)
  have hxf : ((']' : Char) ≠ ']' : Bool) = false := by decide
  have h1 : (A ++ ']' :: '(' :: (c ++ ')' :: REST)).dropWhile (· ≠ ']') =
      ']' :: '(' :: (c ++ ')' :: REST) := dropWhile_all_append hall hxf
  have hpre : (key ++ [')']).isPrefixOf (c ++ ')' :: REST) = false := by
    by_contra hp
    rw [Bool.not_eq_false] at hp
    obtain ⟨v, hv⟩ := List.isPrefixOf_iff_prefix.mp hp
    have hv2 : key ++ ')' :: v = c ++ ')' :: REST := by
      rw [← hv]
      simp
    exact hne ((first_paren_eq hk hc hv2).1).symm
  simp only [ne_eq, decide_not] at h1
  simp [tryMatch, h1, hpre]

theorem noStart_cons {key : List Char} {c : Char} {seg s : List Char}
    (h1 : tryMatch key (c :: (seg ++ s)) = none) (h2 : NoStart key seg s) :
    NoStart key (c :: seg) s :=
  ⟨h1, h2⟩

/-- The scanner walks through a match-free segment character by character. -/
theorem replacePatAux_seg {key norm : List Char} :
    ∀ (seg : List Char) (fuel : Nat) (pre s : List Char), NoStart key seg s →
      replacePatAux key norm (seg.length + fuel) pre (seg ++ s) =
        seg ++ replacePatAux key norm fuel (pre ++ seg) s
  | [], fuel, pre, s, _ => by simp
  | c :: seg, fuel, pre, s, h => by
    have h0 : tryMatch key (c :: (seg ++ s)) = none := h.1
    have hlen : (c :: seg).length + fuel = (seg.length + fuel) + 1 := by
      simp only [List.length_cons]
      omega
    rw [hlen]
    show replacePatAux key norm ((seg.length + fuel) + 1) pre (c :: (seg ++ s)) = _
    simp only [replacePatAux, h0]
    rw [replacePatAux_seg seg fuel (pre ++ [c]) s h.2]
    simp

theorem noStart_append {key : List Char} :
    ∀ {s1 : List Char} {s2 s : List Char},
      NoStart key s1 (s2 ++ s) → NoStart key s2 s → NoStart key (s1 ++ s2) s
  | [], _, _, _, h2 => h2
  | c :: s1, s2, s, h1, h2 => by
    refine noStart_cons ?_ (noStart_append h1.2 h2)
    have h0 : tryMatch key (c :: (s1 ++ (s2 ++ s))) = none := h1.1
    rw [← List.append_assoc] at h0
    exact h0

/-- No match starts inside a segment without `![`, provided what follows
does not begin with `[`. -/
theorem noStart_gap {key : List Char} :
    ∀ {gap : List Char} {s : List Char}, ¬occursIn ['!', '['] gap →
      s.head? ≠ some '[' → NoStart key gap s
  | [], _, _, _ => trivial
  | g :: gap, s, hg, hs => by
    refine noStart_cons ?_
      (noStart_gap (fun ho => hg (occursIn_cons g ho)) hs)
    by_cases hgb : g = '!'
    · subst hgb
      rcases gap with _ | ⟨d, gap2⟩
      · rcases s with _ | ⟨c2, s2⟩
        · exact tryMatch_single key '!'
        · have hc2 : c2 ≠ '[' := by
            intro he
            exact hs (by rw [he]; rfl)
          exact tryMatch_none_snd hc2 '!' s2
      · have hd : d ≠ '[' := by
          intro he
          exact hg ⟨[], gap2, by rw [he]; rfl⟩
        exact tryMatch_none_snd hd '!' (gap2 ++ s)
    · exact tryMatch_none_fst hgb _

/-- No match starts inside the alt segment of a non-matching tag. -/
theorem noStart_alt {key c REST : List Char} (hc : ')' ∉ c) (hk : ')' ∉ key)
    (hne : c ≠ key) :
    ∀ {alt : List Char}, ']' ∉ alt →
      NoStart key alt (']' :: '(' :: (c ++ ')' :: REST))
  | [], _ => trivial
  | a :: alt, halt => by
    have htl : ']' ∉ alt := fun hm => halt (List.mem_cons_of_mem a hm)
    refine noStart_cons ?_ (noStart_alt hc hk hne htl)
    by_cases hab : a = '!'
    · subst hab
      rcases alt with _ | ⟨d, alt2⟩
      · exact tryMatch_none_snd (by decide : (']' : Char) ≠ '[') '!' _
      · by_cases hd : d = '['
        · subst hd
          have ha2 : ']' ∉ alt2 := fun hm => htl (List.mem_cons_of_mem '[' hm)
          exact tryMatch_none_central ha2 hc hk hne
        · exact tryMatch_none_snd hd '!' _
    · exact tryMatch_none_fst hab _

/-- No match starts anywhere inside a non-matching tag `![alt](c)`. -/
theorem noStart_tag {key alt c : List Char} (s : List Char)
    (halt : ']' ∉ alt) (hc1 : ')' ∉ c) (hcb : ¬occursIn ['!', '['] c)
    (hk : ')' ∉ key) (hne : c ≠ key) :
    NoStart key (bodyOf alt c) s := by
  have hbody : bodyOf alt c =
      ('!' :: '[' :: alt) ++ ((']' :: '(' :: c) ++ [')']) := by
    simp [bodyOf]
  rw [hbody]
  have hparen : NoStart key [')'] s :=
    noStart_cons (tryMatch_none_fst (by decide) _) trivial
  have hcseg : NoStart key c ([')'] ++ s) :=
    noStart_gap hcb (by simp)
  have hmid : NoStart key (']' :: '(' :: c) ([')'] ++ s) := by
    refine noStart_cons ?_ (noStart_cons ?_ hcseg)
    · exact tryMatch_none_fst (by decide) _
    · exact tryMatch_none_fst (by decide) _
  have htail : NoStart key ((']' :: '(' :: c) ++ [')']) s :=
    noStart_append hmid hparen
  refine noStart_append ?_ htail
  -- NoStart key ('!' :: '[' :: alt) (((']' :: '(' :: c) ++ [')']) ++ s)
  have hshape : ((']' :: '(' :: c) ++ [')']) ++ s = ']' :: '(' :: (c ++ ')' :: s) := by
    simp
  rw [hshape]
  refine noStart_cons ?_ (noStart_cons ?_ (noStart_alt hc1 hk hne halt))
  · -- tryMatch at the head of the whole tag
    have hsh2 : '!' :: (('[' :: alt) ++ (']' :: '(' :: (c ++ ')' :: s))) =
        '!' :: '[' :: (alt ++ ']' :: '(' :: (c ++ ')' :: s)) := by
      simp
    rw [hsh2]
    exact tryMatch_none_central halt hc1 hk hne
  · exact tryMatch_none_fst (by decide) _

theorem mdSubject_cons (p : MdPart) (parts : List MdPart) (last : List Char) :
    mdSubject (p :: parts) last =
      p.gap ++ (bodyOf p.alt p.ref ++ mdSubject parts last) := by
  simp [mdSubject, List.append_assoc]

theorem bodyOf_append_head (a c x : List Char) :
    (bodyOf a c ++ x).head? = some '!' := rfl

theorem bodyOf_length (a c : List Char) :
    (bodyOf a c).length = a.length + c.length + 5 := by
  simp only [bodyOf, List.length_cons, List.length_append, List.length_nil]
  omega

/-- One replacement pass over a decomposed subject: matching tags are
rewritten through the template, everything else passes through verbatim. -/
theorem replacePat_pass {key norm : List Char} (hk : ')' ∉ key) (hn : '$' ∉ norm) :
    ∀ (parts : List MdPart) (last : List Char) (fuel : Nat) (pre : List Char),
      (∀ p ∈ parts, PassHyp key p) → ¬occursIn (patOf key) last →
      replacePatAux key norm (neededFuel key parts + fuel) pre (mdSubject parts last) =
        mdSubject (passResult key norm parts) last
  | [], last, fuel, pre, _, hlast => by
    show replacePatAux key norm (neededFuel key [] + fuel) pre last = last
    exact replacePatAux_not_occurs _ _ last hlast
  | p :: parts, last, fuel, pre, hps, hlast => by
    obtain ⟨hgap, haltp, href⟩ := hps p (List.mem_cons_self p parts)
    have htail : ∀ q ∈ parts, PassHyp key q :=
      fun q hq => hps q (List.mem_cons_of_mem p hq)
    have hhead : (bodyOf p.alt p.ref ++ mdSubject parts last).head? ≠ some '[' := by
      rw [bodyOf_append_head]
      decide
    rcases href with hkey | ⟨hr2, hr3, hrne⟩
    · have hfuel : neededFuel key (p :: parts) + fuel =
          p.gap.length + ((neededFuel key parts + fuel) + 1) := by
        have h1 : neededFuel key (p :: parts) =
            p.gap.length + (if p.ref = key then 1 else (bodyOf p.alt p.ref).length) +
              neededFuel key parts := rfl
        rw [h1, if_pos hkey]
        omega
      rw [mdSubject_cons, hfuel]
      rw [replacePatAux_seg p.gap _ pre _ (noStart_gap hgap hhead)]
      rw [hkey]
      rw [replacePatAux_match haltp hn]
      rw [replacePat_pass hk hn parts last _ _ htail hlast]
      have hres : passResult key norm (p :: parts) =
          MdPart.mk p.gap p.alt norm :: passResult key norm parts := by
        simp [passResult, hkey]
      rw [hres, mdSubject_cons]
    · have hfuel : neededFuel key (p :: parts) + fuel =
          p.gap.length + ((bodyOf p.alt p.ref).length + (neededFuel key parts + fuel)) := by
        have h1 : neededFuel key (p :: parts) =
            p.gap.length + (if p.ref = key then 1 else (bodyOf p.alt p.ref).length) +
              neededFuel key parts := rfl
        rw [h1, if_neg hrne]
        omega
      rw [mdSubject_cons, hfuel]
      rw [replacePatAux_seg p.gap _ pre _ (noStart_gap hgap hhead)]
      rw [replacePatAux_seg (bodyOf p.alt p.ref) _ _ _
        (noStart_tag _ haltp hr2 hr3 hk hrne)]
      rw [replacePat_pass hk hn parts last _ _ htail hlast]
      have hres : passResult key norm (p :: parts) = p :: passResult key norm parts := by
        simp [passResult, hrne]
      rw [hres, mdSubject_cons]

theorem neededFuel_le {key : List Char} :
    ∀ (parts : List MdPart) (last : List Char),
      neededFuel key parts ≤ (mdSubject parts last).length
  | [], _ => Nat.zero_le _
  | p :: parts, last => by
    have hrec : neededFuel key parts ≤ (mdSubject parts last).length :=
      neededFuel_le parts last
    have h1 : neededFuel key (p :: parts) =
        p.gap.length + (if p.ref = key then 1 else (bodyOf p.alt p.ref).length) +
          neededFuel key parts := rfl
    have h2 : (mdSubject (p :: parts) last).length =
        p.gap.length + ((bodyOf p.alt p.ref).length + (mdSubject parts last).length) := by
      rw [mdSubject_cons]
      simp [List.length_append]
    have h3 : (if p.ref = key then 1 else (bodyOf p.alt p.ref).length) ≤
        (bodyOf p.alt p.ref).length := by
      by_cases hc : p.ref = key
      · rw [if_pos hc, bodyOf_length]
        omega
      · rw [if_neg hc]
    omega

/-- `replacePat` on a decomposed subject. -/
theorem replacePat_decomp {key norm : List Char} (hk : ')' ∉ key) (hn : '$' ∉ norm)
    (parts : List MdPart) (last : List Char)
    (hps : ∀ p ∈ parts, PassHyp key p) (hlast : ¬occursIn (patOf key) last) :
    replacePat key norm (mdSubject parts last) =
      mdSubject (passResult key norm parts) last := by
  rw [replacePat]
  have hle := @neededFuel_le key parts last
  have hd : (mdSubject parts last).length =
      neededFuel key parts + ((mdSubject parts last).length - neededFuel key parts) := by
    omega
  rw [hd]
  exact replacePat_pass hk hn parts last _ [] hps hlast

theorem occursInB_iff (pat : List Char) :
    ∀ (l : List Char), occursInB pat l = true ↔ occursIn pat l
  | [] => by
    rcases pat with _ | ⟨x, p2⟩
    · constructor
      · intro _
        exact ⟨[], [], rfl⟩
      · intro _
        rfl
    · constructor
      · intro h
        simp [occursInB] at h
      · rintro ⟨a, b, hab⟩
        simp at hab
  | c :: rest => by
    rw [occursInB, Bool.or_eq_true]
    constructor
    · rintro (hp | hr)
      · obtain ⟨v, hv⟩ := List.isPrefixOf_iff_prefix.mp hp
        exact ⟨[], v, by rw [← hv]; simp⟩
      · exact occursIn_cons c ((occursInB_iff pat rest).mp hr)
    · rintro ⟨a, b, hab⟩
      rcases a with _ | ⟨x, a2⟩
      · left
        apply List.isPrefixOf_iff_prefix.mpr
        exact ⟨b, by rw [hab]; simp⟩
      · right
        simp only [List.cons_append, List.cons.injEq] at hab
        exact (occursInB_iff pat rest).mpr ⟨a2, b, hab.2⟩

theorem not_occursIn_of_B {pat l : List Char} (h : occursInB pat l = false) :
    ¬occursIn pat l := fun ho => by
  simp [(occursInB_iff pat l).mpr ho] at h

theorem ne_prepend {p l : List Char} (hp : p ≠ []) : l ≠ p ++ l := by
  intro h
  have h2 := congrArg List.length h
  rw [List.length_append] at h2
  have h3 : p.length = 0 := by omega
  exact hp (List.length_eq_zero.mp h3)

theorem ne_append_of_head {x y : List Char} {cx cy : Char}
    (hx : x.head? = some cx) (hy : y.head? = some cy) (hne : cx ≠ cy)
    (a b : List Char) : x ++ a ≠ y ++ b := by
  intro h
  have h2 := congrArg List.head? h
  rw [List.head?_append, List.head?_append, hx, hy] at h2
  have h3 : some cx = some cy := h2
  exact hne (Option.some_inj.mp h3)

theorem rparen_not_mem_up {orig : List Char} (h : ')' ∉ orig) :
    ')' ∉ upPrefix ++ orig := by
  intro hm
  rcases List.mem_append.mp hm with h1 | h1
  · exact absurd h1 (by decide)
  · exact h h1

theorem rparen_not_mem_images {orig : List Char} (h : ')' ∉ orig) :
    ')' ∉ imagesPrefix ++ orig := by
  intro hm
  rcases List.mem_append.mp hm with h1 | h1
  · exact absurd h1 (by decide)
  · exact h h1

theorem occursIn_pair_append {a b : Char} :
    ∀ {x y : List Char}, occursIn [a, b] (x ++ y) →
      occursIn [a, b] x ∨ occursIn [a, b] y ∨
        (x.getLast? = some a ∧ y.head? = some b)
  | [], y, h => Or.inr (Or.inl h)
  | c :: x2, y, h => by
    obtain ⟨u, v, huv⟩ := h
    rcases u with _ | ⟨e, u2⟩
    · simp only [List.nil_append, List.cons_append, List.cons.injEq] at huv
      rcases hx2 : x2 with _ | ⟨f, x3⟩
      · right; right
        rw [hx2] at huv
        simp only [List.nil_append] at huv
        constructor
        · simp [huv.1]
        · rw [huv.2]
          rfl
      · rw [hx2] at huv
        simp only [List.cons_append, List.cons.injEq] at huv
        left
        exact ⟨[], x3, by simp [huv.1, huv.2.1]⟩
    · simp only [List.cons_append, List.cons.injEq] at huv
      have hrec := @occursIn_pair_append a b x2 y ⟨u2, v, huv.2⟩
      rcases hrec with h1 | h1 | h1
      · exact Or.inl (occursIn_cons c h1)
      · exact Or.inr (Or.inl h1)
      · right; right
        refine ⟨?_, h1.2⟩
        rcases x2 with _ | ⟨f, x3⟩
        · simp at h1
        · rw [List.getLast?_cons_cons]
          exact h1.1

theorem noBang_up {orig : List Char} (h : ¬occursIn ['!', '['] orig) :
    ¬occursIn ['!', '['] (upPrefix ++ orig) := by
  intro ho
  rcases occursIn_pair_append ho with h1 | h1 | h1
  · exact not_occursIn_of_B (by decide) h1
  · exact h h1
  · exact absurd h1.1 (by decide)

theorem noBang_images {orig : List Char} (h : ¬occursIn ['!', '['] orig) :
    ¬occursIn ['!', '['] (imagesPrefix ++ orig) := by
  intro ho
  rcases occursIn_pair_append ho with h1 | h1 | h1
  · exact not_occursIn_of_B (by decide) h1
  · exact h h1
  · exact absurd h1.1 (by decide)

theorem imagesForm_ne_upForm (orig : List Char) :
    imagesPrefix ++ orig ≠ upPrefix ++ orig :=
  @ne_append_of_head imagesPrefix upPrefix 'i' '.' (by decide) (by decide)
    (by decide) orig orig

theorem map_eq_of_mem {f g : MdPart → MdPart} :
    ∀ {l : List MdPart}, (∀ p ∈ l, f p = g p) → l.map f = l.map g
  | [], _ => rfl
  | p :: l, h => by
    simp only [List.map_cons]
    rw [h p (List.mem_cons_self p l),
      map_eq_of_mem (fun q hq => h q (List.mem_cons_of_mem p hq))]

/-- The three pattern replacements of one map entry over a decomposed body:
every reference in one of the three accepted forms becomes the normalized
path, everything else is preserved verbatim. -/
theorem rewriteKey_decomp (orig norm : List Char)
    (ho2 : ')' ∉ orig) (ho3 : ¬occursIn ['!', '['] orig)
    (hn2 : ')' ∉ norm) (hn3 : '$' ∉ norm) (hn4 : ¬occursIn ['!', '['] norm)
    (hneU : norm ≠ upPrefix ++ orig) (hneI : norm ≠ imagesPrefix ++ orig)
    (parts : List MdPart) (last : List Char)
    (hps : ∀ p ∈ parts, ¬occursIn ['!', '['] p.gap ∧ ']' ∉ p.alt ∧
      (p.ref = orig ∨ p.ref = upPrefix ++ orig ∨ p.ref = imagesPrefix ++ orig ∨
        (')' ∉ p.ref ∧ ¬occursIn ['!', '['] p.ref ∧
          p.ref ≠ orig ∧ p.ref ≠ upPrefix ++ orig ∧ p.ref ≠ imagesPrefix ++ orig)))
    (hlast1 : ¬occursIn (patOf orig) last)
    (hlast2 : ¬occursIn (patOf (upPrefix ++ orig)) last)
    (hlast3 : ¬occursIn (patOf (imagesPrefix ++ orig)) last) :
    rewriteKey orig norm (mdSubject parts last) =
      mdSubject (parts.map (fun p =>
        if p.ref = orig ∨ p.ref = upPrefix ++ orig ∨ p.ref = imagesPrefix ++ orig
        then MdPart.mk p.gap p.alt norm else p)) last := by
  have hupne : ∀ {r : List Char}, r = upPrefix ++ orig → r ≠ orig := by
    intro r hr
    rw [hr]
    exact (ne_prepend (by decide)).symm
  have himne : ∀ {r : List Char}, r = imagesPrefix ++ orig → r ≠ orig := by
    intro r hr
    rw [hr]
    exact (ne_prepend (by decide)).symm
  have hf1 : ∀ p ∈ parts, PassHyp orig p := by
    intro p hp
    obtain ⟨hg, ha, hr⟩ := hps p hp
    refine ⟨hg, ha, ?_⟩
    rcases hr with h | h | h | h
    · exact Or.inl h
    · refine Or.inr ⟨?_, ?_, hupne h⟩
      · rw [h]; exact rparen_not_mem_up ho2
      · rw [h]; exact noBang_up ho3
    · refine Or.inr ⟨?_, ?_, himne h⟩
      · rw [h]; exact rparen_not_mem_images ho2
      · rw [h]; exact noBang_images ho3
    · exact Or.inr ⟨h.1, h.2.1, h.2.2.1⟩
  have hf2 : ∀ q ∈ passResult orig norm parts, PassHyp (upPrefix ++ orig) q := by
    intro q hq
    obtain ⟨p, hp, hpq⟩ := List.mem_map.mp hq
    obtain ⟨hg, ha, hr⟩ := hps p hp
    rcases hr with h | h | h | h
    · have hq2 : MdPart.mk p.gap p.alt norm = q := by rw [← hpq, if_pos h]
      rw [← hq2]
      exact ⟨hg, ha, Or.inr ⟨hn2, hn4, hneU⟩⟩
    · have hq2 : p = q := by rw [← hpq, if_neg (hupne h)]
      rw [← hq2]
      exact ⟨hg, ha, Or.inl h⟩
    · have hq2 : p = q := by rw [← hpq, if_neg (himne h)]
      rw [← hq2]
      refine ⟨hg, ha, Or.inr ⟨?_, ?_, ?_⟩⟩
      · rw [h]; exact rparen_not_mem_images ho2
      · rw [h]; exact noBang_images ho3
      · rw [h]; exact imagesForm_ne_upForm orig
    · have hq2 : p = q := by rw [← hpq, if_neg h.2.2.1]
      rw [← hq2]
      exact ⟨hg, ha, Or.inr ⟨h.1, h.2.1, h.2.2.2.1⟩⟩
  have hf3 : ∀ q ∈ passResult (upPrefix ++ orig) norm (passResult orig norm parts),
      PassHyp (imagesPrefix ++ orig) q := by
    intro q hq
    obtain ⟨q1, hq1, hq1q⟩ := List.mem_map.mp hq
    obtain ⟨p, hp, hpq⟩ := List.mem_map.mp hq1
    obtain ⟨hg, ha, hr⟩ := hps p hp
    rcases hr with h | h | h | h
    · have hqa : MdPart.mk p.gap p.alt norm = q1 := by rw [← hpq, if_pos h]
      have hqb : q1 = q := by
        rw [← hq1q, ← hqa, if_neg]
        exact hneU
      rw [← hqb, ← hqa]
      exact ⟨hg, ha, Or.inr ⟨hn2, hn4, hneI⟩⟩
    · have hqa : p = q1 := by rw [← hpq, if_neg (hupne h)]
      have hqb : MdPart.mk p.gap p.alt norm = q := by
        rw [← hq1q, ← hqa, if_pos h]
      rw [← hqb]
      exact ⟨hg, ha, Or.inr ⟨hn2, hn4, hneI⟩⟩
    · have hqa : p = q1 := by rw [← hpq, if_neg (himne h)]
      have hqb : p = q := by
        rw [← hq1q, ← hqa, if_neg]
        rw [h]
        exact imagesForm_ne_upForm orig
      rw [← hqb]
      exact ⟨hg, ha, Or.inl h⟩
    · have hqa : p = q1 := by rw [← hpq, if_neg h.2.2.1]
      have hqb : p = q := by rw [← hq1q, ← hqa, if_neg h.2.2.2.1]
      rw [← hqb]
      exact ⟨hg, ha, Or.inr ⟨h.1, h.2.1, h.2.2.2.2⟩⟩
  rw [rewriteKey]
  rw [replacePat_decomp ho2 hn3 parts last hf1 hlast1]
  rw [replacePat_decomp (rparen_not_mem_up ho2) hn3 _ last hf2 hlast2]
  rw [replacePat_decomp (rparen_not_mem_images ho2) hn3 _ last hf3 hlast3]
  congr 1
  simp only [passResult, List.map_map]
  apply map_eq_of_mem
  intro p hp
  obtain ⟨hg, ha, hr⟩ := hps p hp
  simp only [Function.comp_apply]
  rcases hr with h | h | h | h
  · rw [if_pos h, if_neg hneU, if_neg hneI, if_pos (Or.inl h)]
  · rw [if_neg (hupne h), if_pos h, if_neg hneI, if_pos (Or.inr (Or.inl h))]
  · have hne2 : p.ref ≠ upPrefix ++ orig := by
      rw [h]
      exact imagesForm_ne_upForm orig
    rw [if_neg (himne h), if_neg hne2, if_pos h, if_pos (Or.inr (Or.inr h))]
  · rw [if_neg h.2.2.1, if_neg h.2.2.2.1, if_neg h.2.2.2.2,
      if_neg (fun hor => hor.elim h.2.2.1 (fun hor2 => hor2.elim h.2.2.2.1 h.2.2.2.2))]

theorem normalizeMarkdownImagePathsL_noop :
    ∀ {m : List (List Char × List Char)} {s : List Char},
      (∀ kv ∈ m, ¬occursIn (patOf kv.1) s ∧ ¬occursIn (patOf (upPrefix ++ kv.1)) s ∧
        ¬occursIn (patOf (imagesPrefix ++ kv.1)) s) →
      normalizeMarkdownImagePathsL m s = s
  | [], s, _ => rfl
  | kv :: m, s, h => by
    obtain ⟨h1, h2, h3⟩ := h kv (List.mem_cons_self kv m)
    have hstep : rewriteKey kv.1 kv.2 s = s := by
      rw [rewriteKey, replacePat_not_occurs h1, replacePat_not_occurs h2,
        replacePat_not_occurs h3]
    show normalizeMarkdownImagePathsL m (rewriteKey kv.1 kv.2 s) = s
    rw [hstep]
    exact normalizeMarkdownImagePathsL_noop
      (fun kv2 hm => h kv2 (List.mem_cons_of_mem kv hm))

/-- Claim C4 as frozen is false: per-key replacements are applied
sequentially, so a mapping value that itself matches a later mapping key is
rewritten again.  With the mapping `{a.png → b.png, b.png → c.png}` (in
insertion order) the body `![x](a.png)` does not become `![x](b.png)` — the
value `b.png` cascades to `c.png`. -/
theorem claim_C4_cex :
    normalizeMarkdownImagePaths "![x](a.png)" [("a.png", "b.png"), ("b.png", "c.png")] ≠
      "![x](b.png)" ∧
    normalizeMarkdownImagePaths "![x](a.png)" [("a.png", "b.png"), ("b.png", "c.png")] =
      "![x](c.png)" := by
  constructor
  · decide
  · decide

/-- Claim C4, amended.  Provided no mapping value itself re-matches a mapping
key in one of the accepted forms (for a single-entry mapping: the value is
neither of the two prefixed forms of its key), the rewriter replaces, in a
body decomposed into fragments `gap ++ ![alt](ref)` plus trailing text, every
reference whose `ref` matches the key in any of the three accepted forms
(bare, `./../../assets/images/`-prefixed, `images/`-prefixed) by
`![alt](normalizedPath)`, preserving the alt text and leaving every other
fragment — gaps, alt texts, non-matching references, and the trailing text —
byte-identical; a body containing no form of any mapping key is left
byte-identical (for arbitrary multi-entry mappings); and the spec's concrete
example rewrites exactly as stated.  Side conditions: alt texts contain no
`]` (a `]` ends the regex's alt group earlier), gaps, paths and the
normalized path contain no `![` (an earlier `![` starts a larger match),
paths contain no `)` (a `)` ends the reference earlier), the normalized path
contains no `$` (JavaScript `GetSubstitution`, modeled in `substAux`, would
expand `$` sequences inside the replacement), and the trailing text contains
no `](form)` occurrence. -/
theorem claim_C4 (orig norm : List Char) (parts : List MdPart) (last : List Char)
    (ho2 : ')' ∉ orig) (ho3 : occursInB ['!', '['] orig = false)
    (hn2 : ')' ∉ norm) (hn3 : '$' ∉ norm) (hn4 : occursInB ['!', '['] norm = false)
    (hneU : norm ≠ upPrefix ++ orig) (hneI : norm ≠ imagesPrefix ++ orig)
    (hps : ∀ p ∈ parts, occursInB ['!', '['] p.gap = false ∧ ']' ∉ p.alt ∧
      (p.ref = orig ∨ p.ref = upPrefix ++ orig ∨ p.ref = imagesPrefix ++ orig ∨
        (')' ∉ p.ref ∧ occursInB ['!', '['] p.ref = false ∧
          p.ref ≠ orig ∧ p.ref ≠ upPrefix ++ orig ∧ p.ref ≠ imagesPrefix ++ orig)))
    (hlast1 : occursInB (patOf orig) last = false)
    (hlast2 : occursInB (patOf (upPrefix ++ orig)) last = false)
    (hlast3 : occursInB (patOf (imagesPrefix ++ orig)) last = false) :
    normalizeMarkdownImagePathsL [(orig, norm)] (mdSubject parts last) =
      mdSubject (parts.map (fun p =>
        if p.ref = orig ∨ p.ref = upPrefix ++ orig ∨ p.ref = imagesPrefix ++ orig
        then MdPart.mk p.gap p.alt norm else p)) last ∧
    (∀ (m : List (List Char × List Char)) (s : List Char),
      (∀ kv ∈ m, ¬occursIn (patOf kv.1) s ∧ ¬occursIn (patOf (upPrefix ++ kv.1)) s ∧
        ¬occursIn (patOf (imagesPrefix ++ kv.1)) s) →
      normalizeMarkdownImagePathsL m s = s) ∧
    normalizeMarkdownImagePaths "![a](photo.png)" [("photo.png", "images/photo-1.png")] =
      "![a](images/photo-1.png)" := by
  have hconv : ∀ p ∈ parts, ¬occursIn ['!', '['] p.gap ∧ ']' ∉ p.alt ∧
      (p.ref = orig ∨ p.ref = upPrefix ++ orig ∨ p.ref = imagesPrefix ++ orig ∨
        (')' ∉ p.ref ∧ ¬occursIn ['!', '['] p.ref ∧
          p.ref ≠ orig ∧ p.ref ≠ upPrefix ++ orig ∧ p.ref ≠ imagesPrefix ++ orig)) := by
    intro p hp
    obtain ⟨hg, ha, hr⟩ := hps p hp
    refine ⟨not_occursIn_of_B hg, ha, ?_⟩
    rcases hr with h | h | h | h
    · exact Or.inl h
    · exact Or.inr (Or.inl h)
    · exact Or.inr (Or.inr (Or.inl h))
    · exact Or.inr (Or.inr (Or.inr ⟨h.1, not_occursIn_of_B h.2.1, h.2.2⟩))
  refine ⟨?_, fun m s h => normalizeMarkdownImagePathsL_noop h, by decide⟩
  show rewriteKey orig norm (mdSubject parts last) = _
  exact rewriteKey_decomp orig norm ho2 (not_occursIn_of_B ho3) hn2 hn3
    (not_occursIn_of_B hn4) hneU hneI parts last hconv
    (not_occursIn_of_B hlast1) (not_occursIn_of_B hlast2) (not_occursIn_of_B hlast3)

/-- Witness for the amended claim C4: a body with all three accepted forms
plus an unmapped reference, interleaved with surrounding text. -/
theorem claim_C4_witness :
    normalizeMarkdownImagePathsL [("photo.png".data, "images/photo-1.png".data)]
      (mdSubject
        [⟨"Intro ".data, "x".data, "photo.png".data⟩,
         ⟨" then ".data, "y".data, "./../../assets/images/photo.png".data⟩,
         ⟨" and ".data, "z".data, "other.png".data⟩] " end.".data) =
      mdSubject
        [⟨"Intro ".data, "x".data, "images/photo-1.png".data⟩,
         ⟨" then ".data, "y".data, "images/photo-1.png".data⟩,
         ⟨" and ".data, "z".data, "other.png".data⟩] " end.".data := by
  have h := (claim_C4 "photo.png".data "images/photo-1.png".data
    [⟨"Intro ".data, "x".data, "photo.png".data⟩,
     ⟨" then ".data, "y".data, "./../../assets/images/photo.png".data⟩,
     ⟨" and ".data, "z".data, "other.png".data⟩] " end.".data
    (by decide) (by decide) (by decide) (by decide) (by decide) (by decide) (by decide)
    (by decide) (by decide) (by decide) (by decide)).1
  rw [h]
  decide

/-- Claim C5 as frozen is false: the generated metadata block does not
consist only of the enumerated keys — the source also emits a
`candidate: "..."` line, whose key is not in the claim's enumeration. -/
theorem claim_C5_cex :
    "candidate" ∈ metaKeys (generateFrontmatter sampleSubmission none none) ∧
    "candidate" ∉ claimC5Keys := by
  constructor
  · decide
  · decide

/-- Claim C5, amended to include the `candidate` line: for every submission
and optional avatar/image filenames, the generated document is exactly the
fixed key-ordered metadata block — title, meta-title `"{candidate} for
{title}"`, description identical to the meta-title, candidate, party,
election date with the fixed `T12:00:00Z` time-of-day, image and avatar
filenames defaulting to empty strings, category and tag lists as literal
arrays, `draft: false`, the about text with embedded double quotes escaped,
and a website line exactly when the website field is present (an omitted
optional field produces no line at all) — followed by the markdown body. -/
theorem claim_C5 (sub : CandidateSubmission) (avatarFilename imageFilename : Option String) :
    generateFrontmatter sub avatarFilename imageFilename =
      specFrontmatter sub avatarFilename imageFilename := by
  by_cases hw : truthy sub.website
  · apply String.ext
    simp only [generateFrontmatter, specFrontmatter, joinSep, hw, if_true,
      String.data_append, List.append_assoc, List.cons_append, List.nil_append]
  · rw [Bool.not_eq_true] at hw
    apply String.ext
    simp only [generateFrontmatter, specFrontmatter, joinSep, hw, Bool.false_eq_true,
      if_false, String.data_append, List.append_assoc, List.append_nil,
      List.cons_append, List.nil_append]

example : slugOf "Jane  Doe" = "jane-doe" := by decide
example : slugOf "O'Brien, Pat" = "obrien-pat" := by decide
example : yearOf "2026-04-07" = "2026" := by decide

/-- Claim C6 as frozen is false: two submissions with the same candidate name
and *different* correlation IDs can still collide — only the first 8
characters of the correlation ID enter the branch name. -/
theorem claim_C6_cex :
    ("0123abcd-1111-4111-8111-111111111111" : String) ≠
      "0123abcd-2222-4222-8222-222222222222" ∧
    branchName "Jane Doe" "0123abcd-1111-4111-8111-111111111111" =
      branchName "Jane Doe" "0123abcd-2222-4222-8222-222222222222" := by
  constructor
  · decide
  · decide

/-- Claim C6, amended: the branch name is `form-{slug}-{first 8 chars of the
correlation ID}`, so two submissions with identical candidate name and
correlation IDs that differ *within their first 8 characters* get different
branch names; when the correlation ID is at least 8 characters of lower-case
hex (as `randomUUID()` produces), the branch name matches
`form-{slug}-{8 hex chars}`; and the target directory is
`{root}/{year}/{slug}` where the year is the election date's prefix before
the first dash (its leading 4 digits for an ISO date). -/
theorem claim_C6 :
    (∀ (cand cid1 cid2 : String), cid1.data.take 8 ≠ cid2.data.take 8 →
      branchName cand cid1 ≠ branchName cand cid2) ∧
    (∀ (cand cid : String), 8 ≤ cid.data.length →
      (cid.data.take 8).all isHexDigit = true →
      ∃ h : List Char, h.length = 8 ∧ h.all isHexDigit = true ∧
        branchName cand cid = "form-" ++ slugOf cand ++ "-" ++ String.mk h) ∧
    (∀ (sub : CandidateSubmission) (y rest : List Char),
      sub.electionDate.data = y ++ '-' :: rest → (∀ c ∈ y, c ≠ '-') →
      yearOf sub.electionDate = String.mk y ∧
      candidatePath sub =
        "src/content/english/candidates/" ++ String.mk y ++ "/" ++ slugOf sub.candidate) := by
  refine ⟨?_, ?_, ?_⟩
  · intro cand cid1 cid2 hne he
    apply hne
    have hd := congrArg String.data he
    simp only [branchName, String.data_append, List.append_assoc] at hd
    have h1 := List.append_cancel_left hd
    have h2 := List.append_cancel_left h1
    exact List.append_cancel_left h2
  · intro cand cid hlen hhex
    refine ⟨cid.data.take 8, ?_, hhex, rfl⟩
    rw [List.length_take]
    omega
  · intro sub y rest hdate hy
    have hall : ∀ c ∈ y, (c ≠ '-' : Bool) = true := by
      intro c hc
      simp only [decide_eq_true_eq]
      exact hy c hc
    have hx : (('-' : Char) ≠ '-' : Bool) = false := by decide
    have hyear : yearOf sub.electionDate = String.mk y := by
      rw [yearOf, hdate, takeWhile_all_append hall hx]
    exact ⟨hyear, by rw [candidatePath, hyear]⟩

/-- Witness for the amended claim C6: concrete correlation IDs differing in
their first 8 characters give different branch names; a concrete UUID gives
the `form-{slug}-{8 hex}` shape; a concrete ISO date gives the year
directory. -/
theorem claim_C6_witness :
    branchName "Jane Doe" "0123abcd-1111-4111-8111-111111111111" ≠
      branchName "Jane Doe" "9999ffff-2222-4222-8222-222222222222" ∧
    yearOf "2026-04-07" = "2026" := by
  constructor
  · exact claim_C6.1 "Jane Doe" "0123abcd-1111-4111-8111-111111111111"
      "9999ffff-2222-4222-8222-222222222222" (by decide)
  · exact (claim_C6.2.2 { sampleSubmission with electionDate := "2026-04-07" }
      "2026".data "04-07".data (by decide) (by decide)).1

example : utf8FromBase64 "PHN2Zy8+" = "<svg/>" := by decide

example : stripDataUri "data:image/png;base64,AAEC" = "AAEC" := by decide
example : stripDataUri "AAEC" = "AAEC" := by decide

example : basenameOf "images/img-xyz.jpg" = "img-xyz.jpg" := by decide
example : basenameOf "photo.png" = "photo.png" := by decide

/-- Claim C7: every inline vector graphic (SVG) is base64-decoded into text
and committed as an inline text entry; every other image format keeps its
base64 content and is committed as a separately created blob referenced by
its returned identifier; and `index.md` is the final file entry. -/
theorem claim_C7 (shaOf : String → String) (sub : CandidateSubmission) (img : ImageAsset)
    (hmem : img ∈ sub.additionalImages) :
    additionalEntry (candidatePath sub) img ∈ candidateFiles sub ∧
    (isSVG (normalizeFilename (basenameOf img.path)) = true →
      additionalEntry (candidatePath sub) img =
        ⟨candidatePath sub ++ "/" ++ normalizeFilename (basenameOf img.path),
          utf8FromBase64 img.content, false⟩ ∧
      mkTreeItem shaOf (additionalEntry (candidatePath sub) img) =
        ⟨candidatePath sub ++ "/" ++ normalizeFilename (basenameOf img.path), "100644",
          none, some (utf8FromBase64 img.content)⟩) ∧
    (isSVG (normalizeFilename (basenameOf img.path)) = false →
      additionalEntry (candidatePath sub) img =
        ⟨candidatePath sub ++ "/" ++ normalizeFilename (basenameOf img.path),
          img.content, true⟩ ∧
      mkTreeItem shaOf (additionalEntry (candidatePath sub) img) =
        ⟨candidatePath sub ++ "/" ++ normalizeFilename (basenameOf img.path), "100644",
          some (shaOf img.content), none⟩) ∧
    (∃ fm, (candidateFiles sub).getLast? =
      some ⟨candidatePath sub ++ "/index.md", fm, false⟩) ∧
    treeItems shaOf sub = (candidateFiles sub).map (mkTreeItem shaOf) := by
  refine ⟨?_, ?_, ?_, ?_, rfl⟩
  · simp only [candidateFiles]
    refine List.mem_append.mpr (Or.inl ?_)
    refine List.mem_append.mpr (Or.inr ?_)
    exact List.mem_map_of_mem _ hmem
  · intro hsvg
    constructor
    · simp only [additionalEntry, hsvg, if_true]
    · simp only [additionalEntry, hsvg, if_true, mkTreeItem, Bool.false_eq_true, if_false]
  · intro hsvg
    constructor
    · simp only [additionalEntry, hsvg, Bool.false_eq_true, if_false]
    · simp only [additionalEntry, hsvg, Bool.false_eq_true, if_false, mkTreeItem, if_true]
  · exact ⟨_, List.getLast?_concat _⟩

theorem post_ne_options : ("POST" : String) ≠ "OPTIONS" := by decide

example : parseAllowedOrigins none = ["https://www.democracycandidate.us"] := by decide
example : parseAllowedOrigins (some "https://a.example, https://b.example") =
    ["https://a.example", "https://b.example"] := by decide

/-- Witness for claim C7 at a concrete submission whose SVG asset decodes to
`<svg/>`. -/
theorem claim_C7_witness :
    (⟨"images/Logo.SVG", "PHN2Zy8+"⟩ : ImageAsset) ∈ witnessSub.additionalImages ∧
    additionalEntry (candidatePath witnessSub) ⟨"images/Logo.SVG", "PHN2Zy8+"⟩ ∈
      candidateFiles witnessSub :=
  ⟨by decide,
    (claim_C7 (fun _ => "sha0") witnessSub ⟨"images/Logo.SVG", "PHN2Zy8+"⟩ (by decide)).1⟩

/-- Every effect is attempted at most once per invocation: the trace of any
single run has no duplicate entry. -/
theorem submitCandidate_trace_nodup (env : Env) (method : String)
    (body : Option CandidateSubmission) : (submitCandidate env method body).2.Nodup := by
  rcases body with _ | sub
  · simp only [submitCandidate]
    split_ifs <;> simp
  · rcases hp : env.publishResult with _ | url <;>
      simp only [submitCandidate, storeStep, hp] <;>
      split_ifs <;>
      simp [List.nodup_cons]

/-- Claim C1: when field validation passes but the Turnstile oracle rejects
the token, the handler returns HTTP 401 with `success: false` and performs
no side effects — no correlation ID is minted, no publication (branch or
commit) is attempted, and no contact record is written; the only external
interaction is the verification call itself. -/
theorem claim_C1 (env : Env) (sub : CandidateSubmission)
    (hval : validationErrors sub = [])
    (hlocal : env.isLocalDev = false) (htok : env.turnstileOk = false) :
    (submitCandidate env "POST" (some sub)).1.status = 401 ∧
    (submitCandidate env "POST" (some sub)).1.success = some false ∧
    (submitCandidate env "POST" (some sub)).2 =
      [Effect.turnstileVerify sub.turnstileToken] ∧
    Effect.mintUuid ∉ (submitCandidate env "POST" (some sub)).2 ∧
    (∀ b, Effect.publishAttempt b ∉ (submitCandidate env "POST" (some sub)).2) ∧
    (∀ k rec, Effect.storeContact k rec ∉ (submitCandidate env "POST" (some sub)).2) := by
  have hres : submitCandidate env "POST" (some sub) =
      (⟨401, some false, "Invalid security token", none, none, none⟩,
        [Effect.turnstileVerify sub.turnstileToken]) := by
    simp [submitCandidate, post_ne_options, hval, hlocal, htok]
  refine ⟨by rw [hres], by rw [hres], by rw [hres], ?_, ?_, ?_⟩
  · rw [hres]; simp
  · intro b; rw [hres]; simp
  · intro k rec; rw [hres]; simp

/-- Witness for claim C1: a concrete rejected-token environment. -/
theorem claim_C1_witness :
    validationErrors sampleSubmission = [] ∧
    (submitCandidate ⟨false, true, false, "u1", "t1", none, true⟩ "POST"
      (some sampleSubmission)).1.status = 401 :=
  ⟨by decide,
    (claim_C1 ⟨false, true, false, "u1", "t1", none, true⟩ sampleSubmission
      (by decide) rfl rfl).1⟩

/-- Claim C2: the validator checks candidate name, position title, contact
email, verification token and body content for non-emptiness in exactly that
order, accumulating every violation; a submission missing only
`contactEmail` and `turnstileToken` yields exactly those two messages in
that order, returned as HTTP 400 with `success: false` before any external
call (the effect trace is empty). -/
theorem claim_C2 (env : Env) (sub : CandidateSubmission) :
    (validationErrors sub =
      ([(sub.candidate, "Candidate name is required"),
        (sub.title, "Position title is required"),
        (sub.contactEmail, "Contact email is required"),
        (sub.turnstileToken, "Turnstile token is required"),
        (sub.content, "Content is required")].filter
          (fun p => p.1 = "")).map Prod.snd) ∧
    (sub.candidate ≠ "" → sub.title ≠ "" → sub.content ≠ "" →
      sub.contactEmail = "" → sub.turnstileToken = "" →
      validationErrors sub =
        ["Contact email is required", "Turnstile token is required"] ∧
      (submitCandidate env "POST" (some sub)).1 =
        ⟨400, some false, "Validation failed",
          some ["Contact email is required", "Turnstile token is required"], none, none⟩ ∧
      (submitCandidate env "POST" (some sub)).2 = []) := by
  constructor
  · rcases eq_or_ne sub.candidate "" with h1 | h1 <;>
    rcases eq_or_ne sub.title "" with h2 | h2 <;>
    rcases eq_or_ne sub.contactEmail "" with h3 | h3 <;>
    rcases eq_or_ne sub.turnstileToken "" with h4 | h4 <;>
    rcases eq_or_ne sub.content "" with h5 | h5 <;>
    simp [validationErrors, h1, h2, h3, h4, h5]
  · intro h1 h2 h5 h3 h4
    have hv : validationErrors sub =
        ["Contact email is required", "Turnstile token is required"] := by
      simp [validationErrors, h1, h2, h3, h4, h5]
    refine ⟨hv, ?_, ?_⟩
    · simp [submitCandidate, post_ne_options, hv]
    · simp [submitCandidate, post_ne_options, hv]

/-- Witness for claim C2: a concrete submission missing only the contact
email and the Turnstile token. -/
theorem claim_C2_witness :
    ({ sampleSubmission with contactEmail := "", turnstileToken := "" } :
      CandidateSubmission).candidate ≠ "" ∧
    validationErrors { sampleSubmission with contactEmail := "", turnstileToken := "" } =
      ["Contact email is required", "Turnstile token is required"] :=
  ⟨by decide,
    ((claim_C2 ⟨false, true, true, "u1", "t1", none, true⟩
      { sampleSubmission with contactEmail := "", turnstileToken := "" }).2
      (by decide) (by decide) (by decide) rfl rfl).1⟩

/-- Claim C8 as frozen is false: when publication is skipped (local dev
without GitHub credentials), the stored record's pull-request URL is the
fixed placeholder `http://localhost:mock-pr-url`, not the empty string. -/
theorem claim_C8_cex :
    (submitCandidate ⟨true, false, true, "cid-1", "t0", none, true⟩ "POST"
      (some sampleSubmission)).2 =
      [Effect.mintUuid,
       Effect.storeContact "cid-1.json"
         ⟨"cid-1", "t0", "jane@example.com", none, none, none, none, "Jane Doe",
           mockPrUrl⟩] ∧
    mockPrUrl ≠ "" := by
  constructor
  · decide
  · decide

/-- Claim C8, amended: exactly one contact record is created, immediately
after the publication step completes (success or explicit skip), holding the
correlation ID, timestamp, contact fields, candidate name and resulting
pull-request URL — which is the fixed placeholder `http://localhost:mock-pr-url`
when publication was skipped; it is stored once under the
`{correlationId}.json` key, and no record is stored when publication
fails. -/
theorem claim_C8 (env : Env) (sub : CandidateSubmission)
    (hval : validationErrors sub = [])
    (htok : (env.isLocalDev || env.turnstileOk) = true) :
    (env.isLocalDev = true → env.keyConfigured = false →
      (submitCandidate env "POST" (some sub)).2 =
        [Effect.mintUuid,
         Effect.storeContact (env.freshUuid ++ ".json")
           (mkContactRecord env sub env.freshUuid mockPrUrl)]) ∧
    (env.keyConfigured = true → ∀ url, env.publishResult = some url →
      (submitCandidate env "POST" (some sub)).2 =
        (if env.isLocalDev then [] else [Effect.turnstileVerify sub.turnstileToken]) ++
        [Effect.mintUuid,
         Effect.publishAttempt (branchName sub.candidate env.freshUuid),
         Effect.storeContact (env.freshUuid ++ ".json")
           (mkContactRecord env sub env.freshUuid url)]) ∧
    (env.keyConfigured = true → env.publishResult = none →
      ∀ k rec, Effect.storeContact k rec ∉ (submitCandidate env "POST" (some sub)).2) ∧
    (∀ e, (submitCandidate env "POST" (some sub)).2.count e ≤ 1) := by
  refine ⟨?_, ?_, ?_, ?_⟩
  · intro hl hk
    simp [submitCandidate, storeStep, post_ne_options, hval, htok, hl, hk,
      apply_ite Prod.snd, ite_self]
  · intro hk url hp
    simp [submitCandidate, storeStep, post_ne_options, hval, htok, hk, hp,
      apply_ite Prod.snd, ite_self]
  · intro hk hp k rec
    simp [submitCandidate, post_ne_options, hval, htok, hk, hp]
  · intro e
    exact List.nodup_iff_count_le_one.mp
      (submitCandidate_trace_nodup env "POST" (some sub)) e

/-- Witness for the amended claim C8: the skip path stores exactly one
record keyed by the correlation ID, carrying the mock URL. -/
theorem claim_C8_witness :
    validationErrors sampleSubmission = [] ∧
    (submitCandidate ⟨true, false, true, "cid-1", "t0", none, true⟩ "POST"
      (some sampleSubmission)).2 =
      [Effect.mintUuid,
       Effect.storeContact ("cid-1" ++ ".json")
         (mkContactRecord ⟨true, false, true, "cid-1", "t0", none, true⟩
           sampleSubmission "cid-1" mockPrUrl)] :=
  ⟨by decide,
    (claim_C8 ⟨true, false, true, "cid-1", "t0", none, true⟩ sampleSubmission
      (by decide) rfl).1 rfl rfl⟩

/-- Claim C9: a parse failure, a configuration failure (no usable GitHub
credential outside local dev), any hosting-API failure, or an archival
failure all surface as the generic HTTP 500 body whose `correlationId`
field is always the empty string; and no failure kind triggers a retry —
every effect appears at most once in any invocation's trace. -/
theorem claim_C9 (env : Env) (sub : CandidateSubmission) :
    (submitCandidate env "POST" none).1 = resp500 ∧
    resp500.status = 500 ∧ resp500.success = some false ∧
    resp500.correlationId = some "" ∧
    (validationErrors sub = [] → (env.isLocalDev || env.turnstileOk) = true →
      ((env.isLocalDev = false → env.keyConfigured = false →
        (submitCandidate env "POST" (some sub)).1 = resp500) ∧
       (env.keyConfigured = true → env.publishResult = none →
        (submitCandidate env "POST" (some sub)).1 = resp500) ∧
       (env.archiveOk = false → env.isLocalDev = true → env.keyConfigured = false →
        (submitCandidate env "POST" (some sub)).1 = resp500) ∧
       (env.archiveOk = false → env.keyConfigured = true →
        ∀ url, env.publishResult = some url →
        (submitCandidate env "POST" (some sub)).1 = resp500))) ∧
    (∀ (method : String) (body : Option CandidateSubmission) (e : Effect),
      (submitCandidate env method body).2.count e ≤ 1) := by
  refine ⟨?_, rfl, rfl, rfl, ?_, ?_⟩
  · simp [submitCandidate, post_ne_options]
  · intro hval htok
    refine ⟨?_, ?_, ?_, ?_⟩
    · intro hl hk
      have ht : env.turnstileOk = true := by
        rw [hl, Bool.false_or] at htok
        exact htok
      simp [submitCandidate, post_ne_options, hval, hl, hk, ht]
    · intro hk hp
      simp [submitCandidate, post_ne_options, hval, htok, hk, hp]
    · intro ha hl hk
      simp [submitCandidate, storeStep, post_ne_options, hval, htok, ha, hl, hk]
    · intro ha hk url hp
      simp [submitCandidate, storeStep, post_ne_options, hval, htok, ha, hk, hp]
  · intro method body e
    exact List.nodup_iff_count_le_one.mp
      (submitCandidate_trace_nodup env method body) e

/-- Witness for claim C9: a concrete publication failure yields the generic
500 body. -/
theorem claim_C9_witness :
    validationErrors sampleSubmission = [] ∧
    (submitCandidate ⟨false, true, true, "u1", "t1", none, true⟩ "POST"
      (some sampleSubmission)).1 = resp500 :=
  ⟨by decide,
    ((claim_C9 ⟨false, true, true, "u1", "t1", none, true⟩ sampleSubmission).2.2.2.2.1
      (by decide) rfl).2.1 rfl rfl⟩

/-- Claim C10: the `Access-Control-Allow-Origin` header echoes the request's
origin exactly when it is in the configured allow-list, and otherwise falls
back to the first configured origin; it always comes from the allow-list, so
it is never a wildcard (unless a wildcard is itself configured) and never an
origin outside the list. -/
theorem claim_C10 (allowed : List String) (origin : String) (hne : allowed ≠ []) :
    (corsHeaders allowed (some origin)).lookup "Access-Control-Allow-Origin" =
      some (corsAllowOrigin allowed origin) ∧
    (origin ∈ allowed → corsAllowOrigin allowed origin = origin) ∧
    (origin ∉ allowed → corsAllowOrigin allowed origin = allowed.headD "") ∧
    corsAllowOrigin allowed origin ∈ allowed ∧
    ("*" ∉ allowed → corsAllowOrigin allowed origin ≠ "*") := by
  have hmem : corsAllowOrigin allowed origin ∈ allowed := by
    rw [corsAllowOrigin]
    by_cases hm : origin ∈ allowed
    · rw [if_pos hm]; exact hm
    · rw [if_neg hm]
      rcases allowed with _ | ⟨a, rest⟩
      · exact absurd rfl hne
      · exact List.mem_cons_self a rest
  refine ⟨?_, ?_, ?_, hmem, ?_⟩
  · simp [corsHeaders, List.lookup]
  · intro hm; rw [corsAllowOrigin, if_pos hm]
  · intro hm; rw [corsAllowOrigin, if_neg hm]
  · intro hstar heq
    exact hstar (heq ▸ hmem)

/-- Witness for claim C10: a disallowed origin falls back to the first
configured origin. -/
theorem claim_C10_witness :
    (["https://a.example", "https://b.example"] : List String) ≠ [] ∧
    corsAllowOrigin ["https://a.example", "https://b.example"] "https://evil.example" =
      "https://a.example" :=
  ⟨by decide, by
    rw [(claim_C10 ["https://a.example", "https://b.example"] "https://evil.example"
      (by decide)).2.2.1 (by decide)]
    rfl⟩

end DC
